import Mathlib

/-!
Verification of the CoAP codec and retransmission core (uramaki-io/coap).

Shallow embedding conventions:
- Go byte slices are `List Nat`, each element a byte (`< 256` wherever Go's
  `uint8` type guarantees it; theorems carry the corresponding bounds).
- Go `uint16` / `uint32` values are `Nat` with explicit `% 2^16` / `% 2^32`
  at the points where Go performs a conversion, and `< 2^16` / `< 2^32`
  hypotheses where Go's types guarantee the bound.
- Fallible Go functions returning `(value, error)` become `Except`-style
  sum results; Go panics are modelled by a dedicated result constructor.
-/

namespace Coap

/-- Wire format class of an option value (Go `ValueFormat`, `optiondef.go`). -/
inductive ValueFormat where
  | Empty
  | Uint
  | Opaque
  | String
deriving DecidableEq, Repr

/-- Definition of a CoAP option (Go `OptionDef`, `optiondef.go`). -/
structure OptionDef where
  Name : String
  Code : Nat
  ValueFormat : ValueFormat
  Repeatable : Bool
  MinLen : Nat
  MaxLen : Nat
deriving DecidableEq, Repr

/-- A CoAP option: its definition plus its typed value (Go `Option`, `option.go`).
Named `Opt` because `Option` collides with Lean's builtin.  String values are
kept as raw byte lists, matching how the Go code treats them on the wire. -/
structure Opt where
  odef : OptionDef
  uintValue : Nat
  opaqueValue : List Nat
  stringValue : List Nat
deriving DecidableEq, Repr

/-- Shorthand for the option's code (Go accesses the embedded `OptionDef.Code`). -/
def Opt.Code (o : Opt) : Nat := o.odef.Code

/-- `UnrecognizedOptionDef` from `optiondef.go`: the synthetic definition used
for codes missing from the schema (opaque, non-repeatable, `MaxLen: 1034`). -/
def UnrecognizedOptionDef (code : Nat) : OptionDef :=
  { Name := "", Code := code, ValueFormat := .Opaque, Repeatable := false,
    MinLen := 0, MaxLen := 1034 }

/-- `OptionDef.Recognized` from `optiondef.go`: true iff the name is non-empty. -/
def OptionDef.Recognized (o : OptionDef) : Bool := o.Name ≠ ""

/-- `OptionDef.Critical` from `optiondef.go`: `o.Code&0x01 == 0x01`. -/
def OptionDef.Critical (o : OptionDef) : Bool := o.Code &&& 0x01 == 0x01

/-- `Len32` from `option.go`: minimum big-endian byte length of a uint32. -/
def Len32 (v : Nat) : Nat :=
  if v = 0 then 0
  else if v ≤ 0xFF then 1
  else if v ≤ 0xFFFF then 2
  else if v ≤ 0xFFFFFF then 3
  else 4

/-- `Encode32` from `option.go`: append the minimal big-endian bytes of `v`
(`% 256` models Go's `uint8(..)` conversions). -/
def Encode32 (v : Nat) (data : List Nat) : List Nat :=
  if v ≤ 0xFF then data ++ [v % 256]
  else if v ≤ 0xFFFF then data ++ [(v >>> 8) % 256, v % 256]
  else if v ≤ 0xFFFFFF then data ++ [(v >>> 16) % 256, (v >>> 8) % 256, v % 256]
  else data ++ [(v >>> 24) % 256, (v >>> 16) % 256, (v >>> 8) % 256, v % 256]

/-- `Decode32` from `option.go`: big-endian value of a 1-4 byte slice.
Go panics on any other length; the panic is modelled by `none`. -/
def Decode32 (data : List Nat) : Option Nat :=
  match data with
  | [a] => some a
  | [a, b] => some ((a <<< 8) ||| b)
  | [a, b, c] => some ((a <<< 16) ||| (b <<< 8) ||| c)
  | [a, b, c, d] => some ((a <<< 24) ||| (b <<< 16) ||| (c <<< 8) ||| d)
  | _ => none

/-- Errors surfaced by the decoders (`errors.go`). -/
inductive DecodeError where
  | truncated (expected : Nat)
  | unsupportedExtend
  | invalidOptionValueLength (odef : OptionDef) (length : Nat)
  | unsupportedVersion (version : Nat)
  | unsupportedTokenLength (length : Nat)
deriving DecidableEq, Repr

/-- `EncodeExtend` from `option.go`: encode a uint16 as a CoAP extend nibble
plus trailing bytes appended to `data`.  Returns (nibble, updated data). -/
def EncodeExtend (data : List Nat) (v : Nat) : Nat × List Nat :=
  if v < 13 then (v, data)
  else if v < 269 then (13, data ++ [(v - 13) % 256])
  else (14, data ++ [((v - 269) >>> 8) % 256, (v - 269) % 256])

/-- `DecodeExtend` from `option.go`: decode an extend nibble, consuming the
trailing bytes from `data`. -/
def DecodeExtend (data : List Nat) (v : Nat) : Except DecodeError (Nat × List Nat) :=
  if v = 13 then
    match data with
    | [] => .error (.truncated 1)
    | b :: rest => .ok (b + 13, rest)
  else if v = 14 then
    match data with
    | b1 :: b2 :: rest => .ok (((b1 <<< 8) ||| b2) + 269, rest)
    | _ => .error (.truncated 2)
  else if v = 15 then .error .unsupportedExtend
  else .ok (v, data)

deriving instance DecidableEq for Except

/-- A CoAP schema (Go `Schema`, `schema.go`): a registry of option
definitions keyed by code.  The Go map built by `AddOptions` over
distinct-code definitions is modelled as a list searched by code. -/
structure Schema where
  options : List OptionDef
deriving DecidableEq, Repr

/-- `Schema.Option` from `schema.go`: look up a definition by code, falling
back to the synthetic unrecognized definition on a miss. -/
def Schema.Option (s : Schema) (code : Nat) : OptionDef :=
  match s.options.find? (fun d => d.Code == code) with
  | some d => d
  | none => UnrecognizedOptionDef code

/-- The well-known option definitions from `optiondef.go`. -/
def IfMatch : OptionDef :=
  { Name := "IfMatch", Code := 1, ValueFormat := .Opaque, Repeatable := true, MinLen := 0, MaxLen := 8 }

def URIHost : OptionDef :=
  { Name := "URIHost", Code := 3, ValueFormat := .String, Repeatable := false, MinLen := 1, MaxLen := 255 }

def ETag : OptionDef :=
  { Name := "ETag", Code := 4, ValueFormat := .Opaque, Repeatable := true, MinLen := 1, MaxLen := 8 }

def IfNoneMatch : OptionDef :=
  { Name := "IfNoneMatch", Code := 5, ValueFormat := .Empty, Repeatable := false, MinLen := 0, MaxLen := 0 }

def Observe : OptionDef :=
  { Name := "Observe", Code := 6, ValueFormat := .Uint, Repeatable := false, MinLen := 0, MaxLen := 3 }

def URIPort : OptionDef :=
  { Name := "URIPort", Code := 7, ValueFormat := .Uint, Repeatable := false, MinLen := 0, MaxLen := 2 }

def LocationPath : OptionDef :=
  { Name := "LocationPath", Code := 8, ValueFormat := .String, Repeatable := true, MinLen := 0, MaxLen := 255 }

def URIPath : OptionDef :=
  { Name := "URIPath", Code := 11, ValueFormat := .String, Repeatable := true, MinLen := 0, MaxLen := 255 }

def ContentFormat : OptionDef :=
  { Name := "ContentFormat", Code := 12, ValueFormat := .Uint, Repeatable := false, MinLen := 0, MaxLen := 2 }

def MaxAge : OptionDef :=
  { Name := "MaxAge", Code := 14, ValueFormat := .Uint, Repeatable := false, MinLen := 0, MaxLen := 4 }

def URIQuery : OptionDef :=
  { Name := "URIQuery", Code := 15, ValueFormat := .String, Repeatable := true, MinLen := 0, MaxLen := 255 }

def Accept : OptionDef :=
  { Name := "Accept", Code := 17, ValueFormat := .Uint, Repeatable := false, MinLen := 0, MaxLen := 2 }

def LocationQuery : OptionDef :=
  { Name := "LocationQuery", Code := 20, ValueFormat := .String, Repeatable := true, MinLen := 0, MaxLen := 255 }

def Block1 : OptionDef :=
  { Name := "Block1", Code := 27, ValueFormat := .Uint, Repeatable := false, MinLen := 0, MaxLen := 3 }

def Block2 : OptionDef :=
  { Name := "Block2", Code := 23, ValueFormat := .Uint, Repeatable := false, MinLen := 0, MaxLen := 3 }

def ProxyURI : OptionDef :=
  { Name := "ProxyURI", Code := 35, ValueFormat := .String, Repeatable := false, MinLen := 1, MaxLen := 1034 }

def ProxyScheme : OptionDef :=
  { Name := "ProxyScheme", Code := 39, ValueFormat := .String, Repeatable := false, MinLen := 1, MaxLen := 255 }

def Size1 : OptionDef :=
  { Name := "Size1", Code := 60, ValueFormat := .Uint, Repeatable := false, MinLen := 0, MaxLen := 4 }

def Size2 : OptionDef :=
  { Name := "Size2", Code := 28, ValueFormat := .Uint, Repeatable := false, MinLen := 0, MaxLen := 4 }

def NoResponse : OptionDef :=
  { Name := "NoResponse", Code := 258, ValueFormat := .Uint, Repeatable := false, MinLen := 0, MaxLen := 1 }

/-- `DefaultSchema` from `schema.go` (options only; media types are not
needed by any claim). -/
def DefaultSchema : Schema :=
  { options := [IfMatch, URIHost, URIPort, URIPath, URIQuery, ETag, IfNoneMatch,
                Observe, LocationPath, LocationQuery, ContentFormat, MaxAge,
                Accept, Block1, Block2, ProxyURI, ProxyScheme, Size1, Size2,
                NoResponse] }

/-- `Option.GetLength` from `option.go`: encoded length of the value
(`% 65536` models Go's `uint16(len(..))` conversions). -/
def Opt.GetLength (o : Opt) : Nat :=
  match o.odef.ValueFormat with
  | .Uint => Len32 o.uintValue
  | .Opaque => o.opaqueValue.length % 65536
  | .String => o.stringValue.length % 65536
  | .Empty => 0

/-- Body of `Option.Encode` from `option.go`, as the bytes appended for one
option.  Go reserves the delta/length header byte, appends the two extend
trailers, then patches the header; the net appended bytes are the header
byte followed by both trailers and the value. -/
def Opt.encodeBytes (o : Opt) (prev : Nat) : List Nat :=
  let delta := (o.odef.Code + 65536 - prev) % 65536
  let ed := EncodeExtend [] delta
  let length := o.GetLength
  let el := EncodeExtend [] length
  let out := ((ed.1 <<< 4) ||| el.1) :: (ed.2 ++ el.2)
  if length = 0 then out
  else match o.odef.ValueFormat with
    | .Opaque => out ++ o.opaqueValue
    | .String => out ++ o.stringValue
    | .Uint => Encode32 o.uintValue out
    | .Empty => out

/-- `Option.Encode` from `option.go`.  The Go error result is always `nil`,
so only the byte output is modelled. -/
def Opt.Encode (o : Opt) (data : List Nat) (prev : Nat) : List Nat :=
  data ++ o.encodeBytes prev

/-- Result of decoding one option: success with remaining bytes, a returned
error with the current position, or a Go panic. -/
inductive DecOut where
  | ok (o : Opt) (rest : List Nat)
  | err (e : DecodeError) (rest : List Nat)
  | panics
deriving DecidableEq, Repr

/-- `Option.Decode` from `option.go`: decode one option given the previous
code and a schema.  `>>> 4` / `&&& 15` mirror Go's `header>>4` / `header&0x0F`
on the `uint8` header byte; `% 65536` mirrors `uint16` addition of
`prev + delta`. -/
def Opt.Decode (data : List Nat) (prev : Nat) (schema : Schema) : DecOut :=
  match data with
  | [] => .err (.truncated 1) []
  | header :: data =>
    match DecodeExtend data (header >>> 4) with
    | .error e => .err e data
    | .ok (delta, data) =>
      match DecodeExtend data (header &&& 0x0F) with
      | .error e => .err e data
      | .ok (length, data) =>
        let code := (prev + delta) % 65536
        let odef := schema.Option code
        if data.length < length then .err (.truncated length) data
        else if length < odef.MinLen ∨ odef.MaxLen < length then
          .err (.invalidOptionValueLength odef length) data
        else if length = 0 then .ok ⟨odef, 0, [], []⟩ data
        else match odef.ValueFormat with
          | .Opaque => .ok ⟨odef, 0, data.take length, []⟩ (data.drop length)
          | .String => .ok ⟨odef, 0, [], data.take length⟩ (data.drop length)
          | .Uint =>
            match Decode32 (data.take length) with
            | some v => .ok ⟨odef, v, [], []⟩ (data.drop length)
            | none => .panics
          | .Empty => .ok ⟨odef, 0, [], []⟩ (data.drop length)

/-- An option collection (Go `Options`, `options.go`). -/
structure Options where
  data : List Opt
deriving DecidableEq, Repr

/-- Stable insertion of an option into a code-sorted list, placing it before
the first option of greater-or-equal code.  Folded from the right over the
original list this keeps equal-code options in their original relative
order. -/
def insertByCode (o : Opt) : List Opt → List Opt
  | [] => [o]
  | x :: xs => if o.Code ≤ x.Code then o :: x :: xs else x :: insertByCode o xs

/-- The *stable* by-code insertion sort: the reference order against which
the tie behaviour of Go's `slices.SortFunc` (modelled below as `sortFuncGo`,
the sort `Options.AppendBinary` actually performs) is compared.  For fewer
than 13 options the two coincide, since pdqsort then degenerates to a stable
insertion sort; from 13 options on they can differ on equal codes. -/
def sortByCode (l : List Opt) : List Opt := l.foldr insertByCode []

/-!
### Go's `slices.SortFunc` (pdqsort)

`Options.AppendBinary` sorts with `slices.SortFunc(options, cmp.Compare on
Code)`.  For slices shorter than 13 elements that is the insertion sort
modelled by `sortByCode` above; in general it is Go's pdqsort
(`slices/zsortanyfunc.go`), translated below over `Array Opt` to settle the
question of tie order among equal codes.  `cmpLess x y` models
`cmp(x, y) < 0` for the comparator `cmp.Compare(x.Code, y.Code)`.  Loops are
bounded by explicit fuel arguments that dominate their Go iteration counts.
-/

instance : Inhabited OptionDef := ⟨⟨"", 0, .Empty, false, 0, 0⟩⟩

instance : Inhabited Opt := ⟨⟨default, 0, [], []⟩⟩

/-- `cmp(x, y) < 0` for the by-code comparator of `Options.AppendBinary`. -/
def cmpLess (x y : Opt) : Bool := x.Code < y.Code

/-- Bounds-checked swap (Go slice indexing; all uses are in bounds). -/
def aswap (xs : Array Opt) (i j : Nat) : Array Opt :=
  if h : i < xs.size ∧ j < xs.size then xs.swap ⟨i, h.1⟩ ⟨j, h.2⟩ else xs

/-- Bounds-checked read (Go slice indexing; all uses are in bounds). -/
def aget (xs : Array Opt) (i : Nat) : Opt := xs.getD i default

/-- Inner loop of `insertionSortCmpFunc`: sift `data[j]` down while smaller
than its predecessor. -/
def insertionSortInner (xs : Array Opt) (a : Nat) : Nat → Array Opt
  | 0 => xs
  | j + 1 =>
    if a < j + 1 ∧ cmpLess (aget xs (j + 1)) (aget xs j) then
      insertionSortInner (aswap xs (j + 1) j) a j
    else xs

def insertionSortAux (a : Nat) : Array Opt → Nat → Nat → Array Opt
  | xs, _, 0 => xs
  | xs, i, n + 1 => insertionSortAux a (insertionSortInner xs a i) (i + 1) n

/-- `insertionSortCmpFunc(data, a, b, cmp)`. -/
def insertionSortCF (xs : Array Opt) (a b : Nat) : Array Opt :=
  insertionSortAux a xs (a + 1) (b - (a + 1))

/-- Loop of `siftDownCmpFunc`; the root only increases, so `hi` bounds the
iteration count. -/
def siftDownAux (hi first : Nat) : Array Opt → Nat → Nat → Array Opt
  | xs, _, 0 => xs
  | xs, root, f + 1 =>
    let child := 2 * root + 1
    if hi ≤ child then xs
    else
      let child := if child + 1 < hi ∧
          cmpLess (aget xs (first + child)) (aget xs (first + child + 1)) then
        child + 1 else child
      if ¬ (cmpLess (aget xs (first + root)) (aget xs (first + child)) = true) then xs
      else siftDownAux hi first (aswap xs (first + root) (first + child)) child f

/-- `siftDownCmpFunc(data, lo, hi, first, cmp)`. -/
def siftDownCF (xs : Array Opt) (lo hi first : Nat) : Array Opt :=
  siftDownAux hi first xs lo hi

def heapBuildAux (hi first : Nat) : Array Opt → Nat → Array Opt
  | xs, 0 => siftDownCF xs 0 hi first
  | xs, i + 1 => heapBuildAux hi first (siftDownCF xs (i + 1) hi first) i

def heapExtractAux (first : Nat) : Array Opt → Nat → Array Opt
  | xs, 0 => siftDownCF (aswap xs first first) 0 0 first
  | xs, i + 1 =>
    heapExtractAux first (siftDownCF (aswap xs first (first + (i + 1))) 0 (i + 1) first) i

/-- `heapSortCmpFunc(data, a, b, cmp)`. -/
def heapSortCF (xs : Array Opt) (a b : Nat) : Array Opt :=
  let first := a
  let hi := b - a
  let xs := heapBuildAux hi first xs ((hi - 1) / 2)
  if hi = 0 then xs else heapExtractAux first xs (hi - 1)

def reverseRangeAux : Array Opt → Nat → Nat → Nat → Array Opt
  | xs, _, _, 0 => xs
  | xs, i, j, f + 1 => if i < j then reverseRangeAux (aswap xs i j) (i + 1) (j - 1) f else xs

/-- `reverseRangeCmpFunc(data, a, b)`. -/
def reverseRangeCF (xs : Array Opt) (a b : Nat) : Array Opt :=
  reverseRangeAux xs a (b - 1) b

/-- `xorshift.Next()` over a 64-bit state. -/
def xorshiftNext (r : Nat) : Nat :=
  let r := (r ^^^ (r <<< 13)) % (2 ^ 64)
  let r := (r ^^^ (r >>> 7)) % (2 ^ 64)
  let r := (r ^^^ (r <<< 17)) % (2 ^ 64)
  r

/-- `bits.Len(uint(n))`. -/
def bitsLen (n : Nat) : Nat := if n = 0 then 0 else Nat.log2 n + 1

/-- `nextPowerOfTwo(length) = 1 << bits.Len(uint(length))`. -/
def nextPowerOfTwo (length : Nat) : Nat := 1 <<< bitsLen length

def breakPatternsLoop (a length modulus : Nat) : Array Opt → Nat → Nat → Nat → Array Opt
  | xs, _, _, 0 => xs
  | xs, random, i, n + 1 =>
    let random := xorshiftNext random
    let other := random &&& (modulus - 1)
    let other := if length ≤ other then other - length else other
    let idx := a + (length / 4) * 2 - 1
    breakPatternsLoop a length modulus (aswap xs (idx - 1 + i) (a + other)) random (i + 1) n

/-- `breakPatternsCmpFunc(data, a, b)`. -/
def breakPatternsCF (xs : Array Opt) (a b : Nat) : Array Opt :=
  let length := b - a
  if 8 ≤ length then
    breakPatternsLoop a length (nextPowerOfTwo length) xs length 0 3
  else xs

/-- `order2CmpFunc(data, a, b, &swaps, cmp)`: order two indices, counting
swaps. -/
def order2CF (xs : Array Opt) (a b swaps : Nat) : Nat × Nat × Nat :=
  if cmpLess (aget xs b) (aget xs a) then (b, a, swaps + 1) else (a, b, swaps)

/-- `medianCmpFunc(data, a, b, c, &swaps, cmp)`. -/
def medianCF (xs : Array Opt) (a b c swaps : Nat) : Nat × Nat :=
  let r1 := order2CF xs a b swaps
  let a := r1.1
  let b := r1.2.1
  let swaps := r1.2.2
  let r2 := order2CF xs b c swaps
  let b := r2.1
  let swaps := r2.2.2
  let r3 := order2CF xs a b swaps
  let b := r3.2.1
  let swaps := r3.2.2
  (b, swaps)

/-- `medianAdjacentCmpFunc(data, a, &swaps, cmp)`. -/
def medianAdjacentCF (xs : Array Opt) (a swaps : Nat) : Nat × Nat :=
  medianCF xs (a - 1) a (a + 1) swaps

/-- Sortedness hints of the pdqsort pivot chooser. -/
inductive SortedHint where
  | unknown
  | increasing
  | decreasing
deriving DecidableEq, Repr

/-- `choosePivotCmpFunc(data, a, b, cmp)`. -/
def choosePivotCF (xs : Array Opt) (a b : Nat) : Nat × SortedHint :=
  let l := b - a
  let swaps := 0
  let i := a + l / 4 * 1
  let j := a + l / 4 * 2
  let k := a + l / 4 * 3
  let r :=
    if 8 ≤ l then
      if 50 ≤ l then
        let ri := medianAdjacentCF xs i swaps
        let rj := medianAdjacentCF xs j ri.2
        let rk := medianAdjacentCF xs k rj.2
        medianCF xs ri.1 rj.1 rk.1 rk.2
      else medianCF xs i j k swaps
    else (j, swaps)
  if r.2 = 0 then (r.1, .increasing)
  else if r.2 = 12 then (r.1, .decreasing)
  else (r.1, .unknown)

def pisScan (xs : Array Opt) (b : Nat) : Nat → Nat → Nat
  | i, 0 => i
  | i, f + 1 =>
    if i < b ∧ ¬ (cmpLess (aget xs i) (aget xs (i - 1)) = true) then
      pisScan xs b (i + 1) f
    else i

def pisShiftLeft : Array Opt → Nat → Array Opt
  | xs, 0 => xs
  | xs, j + 1 =>
    if ¬ (cmpLess (aget xs (j + 1)) (aget xs j) = true) then xs
    else pisShiftLeft (aswap xs (j + 1) j) j

def pisShiftRight (b : Nat) : Array Opt → Nat → Nat → Array Opt
  | xs, _, 0 => xs
  | xs, j, f + 1 =>
    if j < b then
      if ¬ (cmpLess (aget xs j) (aget xs (j - 1)) = true) then xs
      else pisShiftRight b (aswap xs j (j - 1)) (j + 1) f
    else xs

def pisAux (a b : Nat) : Array Opt → Nat → Nat → Array Opt × Bool
  | xs, _, 0 => (xs, false)
  | xs, i, step + 1 =>
    let i := pisScan xs b i b
    if i = b then (xs, true)
    else if b - a < 50 then (xs, false)
    else
      let xs := aswap xs i (i - 1)
      let xs := if 2 ≤ i - a then pisShiftLeft xs (i - 1) else xs
      let xs := if 2 ≤ b - i then pisShiftRight b xs (i + 1) (b - (i + 1)) else xs
      pisAux a b xs i step

/-- `partialInsertionSortCmpFunc(data, a, b, cmp)`: the array after the
attempt and whether the range ended up sorted. -/
def partialInsertionSortCF (xs : Array Opt) (a b : Nat) : Array Opt × Bool :=
  pisAux a b xs (a + 1) 5

def partScanI (xs : Array Opt) (a j : Nat) : Nat → Nat → Nat
  | i, 0 => i
  | i, f + 1 =>
    if i ≤ j ∧ cmpLess (aget xs i) (aget xs a) then partScanI xs a j (i + 1) f else i

def partScanJ (xs : Array Opt) (a i : Nat) : Nat → Nat → Nat
  | j, 0 => j
  | j, f + 1 =>
    if i ≤ j ∧ ¬ (cmpLess (aget xs j) (aget xs a) = true) then
      partScanJ xs a i (j - 1) f
    else j

def partLoop (a b : Nat) : Array Opt → Nat → Nat → Nat → Array Opt × Nat × Nat
  | xs, i, j, 0 => (xs, i, j)
  | xs, i, j, f + 1 =>
    let i := partScanI xs a j i b
    let j := partScanJ xs a i j b
    if j < i then (xs, i, j)
    else partLoop a b (aswap xs i j) (i + 1) (j - 1) f

/-- `partitionCmpFunc(data, a, b, pivot, cmp)`: array, new pivot position,
and whether the range was already partitioned. -/
def partitionCF (xs : Array Opt) (a b pivot : Nat) : Array Opt × Nat × Bool :=
  let xs := aswap xs a pivot
  let i := a + 1
  let j := b - 1
  let i := partScanI xs a j i b
  let j := partScanJ xs a i j b
  if j < i then (aswap xs j a, j, true)
  else
    let xs := aswap xs i j
    let r := partLoop a b xs (i + 1) (j - 1) b
    (aswap r.1 r.2.2 a, r.2.2, false)

def pisEqScanI (xs : Array Opt) (a j : Nat) : Nat → Nat → Nat
  | i, 0 => i
  | i, f + 1 =>
    if i ≤ j ∧ ¬ (cmpLess (aget xs a) (aget xs i) = true) then
      pisEqScanI xs a j (i + 1) f
    else i

def pisEqScanJ (xs : Array Opt) (a i : Nat) : Nat → Nat → Nat
  | j, 0 => j
  | j, f + 1 =>
    if i ≤ j ∧ cmpLess (aget xs a) (aget xs j) then pisEqScanJ xs a i (j - 1) f else j

def partEqLoop (a b : Nat) : Array Opt → Nat → Nat → Nat → Array Opt × Nat
  | xs, i, _, 0 => (xs, i)
  | xs, i, j, f + 1 =>
    let i := pisEqScanI xs a j i b
    let j := pisEqScanJ xs a i j b
    if j < i then (xs, i)
    else partEqLoop a b (aswap xs i j) (i + 1) (j - 1) f

/-- `partitionEqualCmpFunc(data, a, b, pivot, cmp)`: array and the index of
the first element greater than the pivot. -/
def partitionEqualCF (xs : Array Opt) (a b pivot : Nat) : Array Opt × Nat :=
  let xs := aswap xs a pivot
  partEqLoop a b xs (a + 1) (b - 1) b

/-- The loop of `pdqsortCmpFunc`, with the loop-carried `wasBalanced` and
`wasPartitioned` flags explicit; recursive calls re-enter with both flags
true, exactly as the Go locals are re-initialized. -/
def pdqsortLoop : Array Opt → Nat → Nat → Nat → Bool → Bool → Nat → Array Opt
  | xs, _, _, _, _, _, 0 => xs
  | xs, a, b, limit, wasBalanced, wasPartitioned, f + 1 =>
    let length := b - a
    if length ≤ 12 then insertionSortCF xs a b
    else if limit = 0 then heapSortCF xs a b
    else
      let limit' := if wasBalanced = false then limit - 1 else limit
      let xs := if wasBalanced = false then breakPatternsCF xs a b else xs
      let ph := choosePivotCF xs a b
      let xs := if ph.2 = .decreasing then reverseRangeCF xs a b else xs
      let pivot := if ph.2 = .decreasing then (b - 1) - (ph.1 - a) else ph.1
      let hint := if ph.2 = .decreasing then SortedHint.increasing else ph.2
      let pis := if wasBalanced = true ∧ wasPartitioned = true ∧ hint = .increasing then
        partialInsertionSortCF xs a b else (xs, false)
      if pis.2 = true then pis.1
      else
        let xs := pis.1
        if 0 < a ∧ ¬ (cmpLess (aget xs (a - 1)) (aget xs pivot) = true) then
          let pe := partitionEqualCF xs a b pivot
          pdqsortLoop pe.1 pe.2 b limit' wasBalanced wasPartitioned f
        else
          let pr := partitionCF xs a b pivot
          let xs := pr.1
          let mid := pr.2.1
          let alreadyPartitioned := pr.2.2
          let leftLen := mid - a
          let rightLen := b - mid
          let balanceThreshold := length / 8
          let wasBalanced' := decide (balanceThreshold ≤ min leftLen rightLen)
          if leftLen < rightLen then
            let xs := pdqsortLoop xs a mid limit' true true f
            pdqsortLoop xs (mid + 1) b limit' wasBalanced' alreadyPartitioned f
          else
            let xs := pdqsortLoop xs (mid + 1) b limit' true true f
            pdqsortLoop xs a mid limit' wasBalanced' alreadyPartitioned f

/-- `pdqsortCmpFunc(data, a, b, limit, cmp)`; the fuel dominates the number
of loop iterations and recursion depth for any input of size `b`. -/
def pdqsortCF (xs : Array Opt) (a b limit : Nat) : Array Opt :=
  pdqsortLoop xs a b limit true true ((b + 2) * (limit + 2))

/-- `slices.SortFunc(x, func(l, r Option) int { return cmp.Compare(l.Code,
r.Code) })` as called by `Options.AppendBinary` and `MakeOptions`. -/
def sortFuncGo (l : List Opt) : List Opt :=
  (pdqsortCF l.toArray 0 l.length (bitsLen l.length)).toList

/-- An unrecognized-opaque option with the given code and value byte. -/
def mkOpt (code : Nat) (value : List Nat) : Opt :=
  ⟨UnrecognizedOptionDef code, 0, value, []⟩

/-- 13 options whose codes are `[5,0,1,2,3,4,5,6,7,8,9,10,11]`; the two
code-5 options are distinguished by their opaque values `[0xA1]` (first, at
index 0) and `[0xA2]` (second, at index 6). -/
def c6input : List Opt :=
  [mkOpt 5 [0xA1], mkOpt 0 [], mkOpt 1 [], mkOpt 2 [], mkOpt 3 [], mkOpt 4 [],
   mkOpt 5 [0xA2], mkOpt 6 [], mkOpt 7 [], mkOpt 8 [], mkOpt 9 [], mkOpt 10 [],
   mkOpt 11 []]

/-- What Go's `slices.SortFunc` produces on `c6input`: sorted by code, but
with `[0xA2]` now preceding `[0xA1]` among the two code-5 options. -/
def c6output : List Opt :=
  [mkOpt 0 [], mkOpt 1 [], mkOpt 2 [], mkOpt 3 [], mkOpt 4 [], mkOpt 5 [0xA2],
   mkOpt 5 [0xA1], mkOpt 6 [], mkOpt 7 [], mkOpt 8 [], mkOpt 9 [], mkOpt 10 [],
   mkOpt 11 []]

/-- `PayloadMarker` from `message.go`. -/
def PayloadMarker : Nat := 0xFF

/-- `Options.AppendBinary` from `options.go`: sort a clone of the options by
code with `slices.SortFunc` (pdqsort, `sortFuncGo`) and encode them with a
running previous code.  The per-option error is always `nil` in Go, so the
loop's error branch is dead. -/
def Options.AppendBinary (o : Options) (data : List Nat) : List Nat :=
  if o.data.isEmpty then data
  else
    (sortFuncGo o.data).foldl
      (fun acc opt => (Opt.Encode opt acc.1 acc.2, opt.Code)) (data, 0) |>.1

/-- Result of the bulk option decode: the decoded options with remaining
bytes, an error with the current position, a Go panic, or fuel exhaustion
(`outOfFuel` is unreachable for the fuel supplied by `Options.Decode`). -/
inductive OptsOut where
  | ok (opts : List Opt) (rest : List Nat)
  | err (e : DecodeError) (rest : List Nat)
  | panics
  | outOfFuel
deriving DecidableEq, Repr

/-- Prepend a decoded option to a successful loop result. -/
def OptsOut.consOk (o : Opt) : OptsOut → OptsOut
  | .ok opts rest => .ok (o :: opts) rest
  | r => r

/-- The decode loop of `Options.Decode` from `options.go`: repeatedly decode
options until the buffer is empty or the payload marker is reached.  After
each decode, a non-repeatable option whose code equals `prev` is rewritten
to the unrecognized definition, `prev` is updated, and unrecognized elective
options are skipped.  `fuel` bounds the iteration count; each iteration
consumes at least one byte, so `data.length + 1` fuel always suffices. -/
def decodeLoop (schema : Schema) : Nat → List Nat → Nat → OptsOut
  | 0, _, _ => .outOfFuel
  | _ + 1, [], _ => .ok [] []
  | fuel + 1, b :: rest, prev =>
    if b = PayloadMarker then .ok [] (b :: rest)
    else
      match Opt.Decode (b :: rest) prev schema with
      | .err e r => .err e r
      | .panics => .panics
      | .ok o r =>
        let o := if o.odef.Repeatable = false ∧ o.Code = prev then
          { o with odef := UnrecognizedOptionDef o.Code } else o
        if o.odef.Recognized = false ∧ o.odef.Critical = false then
          decodeLoop schema fuel r o.Code
        else
          (decodeLoop schema fuel r o.Code).consOk o

/-- `Options.Decode` from `options.go` (the stored options are replaced only
on success, so the result is returned functionally). -/
def Options.Decode (data : List Nat) (schema : Schema) : OptsOut :=
  decodeLoop schema (data.length + 1) data 0

/-- A CoAP message header (Go `Header`, `header.go`).  The Go field `Type`
is named `Tpe` because `Type` is a Lean keyword. -/
structure Header where
  Version : Nat
  Tpe : Nat
  Code : Nat
  ID : Nat
  Token : List Nat
deriving DecidableEq, Repr

/-- `ProtocolVersion`, `TokenMaxLength` and `HeaderLength` from `header.go`. -/
def ProtocolVersion : Nat := 1

def TokenMaxLength : Nat := 8

def HeaderLength : Nat := 4

/-- `Header.AppendBinary` from `header.go`: version and token-length checks,
then the 4-byte header followed by the token.  `% 256` models the `uint8`
conversions in `uint8(h.Version<<6) | uint8(h.Type<<4) | uint8(tkl)`. -/
def Header.AppendBinary (h : Header) (data : List Nat) : Except DecodeError (List Nat) :=
  if h.Version ≠ ProtocolVersion then .error (.unsupportedVersion h.Version)
  else
    let tkl := h.Token.length
    if TokenMaxLength < tkl then .error (.unsupportedTokenLength tkl)
    else
      let b := (((h.Version <<< 6) % 256) ||| ((h.Tpe <<< 4) % 256)) ||| tkl
      .ok (data ++ [b, h.Code, (h.ID >>> 8) % 256, h.ID % 256] ++ h.Token)

/-- Result of decoding a header: the header with the remaining bytes, or an
error together with the position Go returns alongside it. -/
inductive HdrOut where
  | ok (h : Header) (rest : List Nat)
  | err (e : DecodeError) (rest : List Nat)
deriving DecidableEq, Repr

/-- `Header.Decode` from `header.go`. -/
def Header.Decode (data : List Nat) : HdrOut :=
  if data.length < HeaderLength then .err (.truncated HeaderLength) data
  else
    match data with
    | b :: code :: id1 :: id2 :: rest =>
      let version := b >>> 6
      if version ≠ ProtocolVersion then .err (.unsupportedVersion version) (b :: code :: id1 :: id2 :: rest)
      else
        let tpe := (b &&& 0x30) >>> 4
        let messageID := (id1 <<< 8) ||| id2
        let tkl := b &&& 0x0F
        if TokenMaxLength < tkl then .err (.unsupportedTokenLength tkl) rest
        else if rest.length < tkl then .err (.truncated tkl) rest
        else .ok ⟨version, tpe, code, messageID, rest.take tkl⟩ (rest.drop tkl)
    | _ => .err (.truncated HeaderLength) data

/-- A CoAP message (Go `Message`, `message.go`): header, options, payload. -/
structure Message where
  header : Header
  options : Options
  Payload : List Nat
deriving DecidableEq, Repr

/-- `Message.AppendBinary` from `message.go`: version check, header, options,
then the payload marker and payload iff the payload is non-empty. -/
def Message.AppendBinary (m : Message) (data : List Nat) : Except DecodeError (List Nat) :=
  if m.header.Version ≠ ProtocolVersion then .error (.unsupportedVersion m.header.Version)
  else
    match m.header.AppendBinary data with
    | .error e => .error e
    | .ok data =>
      let data := m.options.AppendBinary data
      if m.Payload ≠ [] then .ok (data ++ PayloadMarker :: m.Payload)
      else .ok data

/-- Result of decoding a message (Go wraps decode errors with the consumed
offset in `UnmarshalError`). -/
inductive MsgOut where
  | ok (m : Message)
  | err (offset : Nat) (cause : DecodeError)
  | panics
  | outOfFuel
deriving DecidableEq, Repr

/-- `Message.Decode` from `message.go`: header, options, then the payload is
present only when more than the lone marker byte remains.  A fresh receiver
is assumed, so an absent payload is the empty list. -/
def Message.Decode (data : List Nat) (schema : Schema) : MsgOut :=
  let length := data.length
  match Header.Decode data with
  | .err e rest => .err (length - rest.length) e
  | .ok h rest =>
    match Options.Decode rest schema with
    | .err e r => .err (length - r.length) e
    | .panics => .panics
    | .outOfFuel => .outOfFuel
    | .ok opts rest2 =>
      .ok { header := h, options := ⟨opts⟩,
            Payload := if 1 < rest2.length then rest2.drop 1 else [] }

/-- Retransmission parameters (Go `RetransmitOptions`, `conn.go`); times are
integers (nanoseconds in Go).  The jitter source and error handler are not
part of the queue logic modelled here: error reports are returned instead of
being passed to the handler. -/
structure RetransmitOptions where
  ACKTimeout : Int
  MaxRetransmit : Nat
  MaxTransmitWait : Int
  MaxTransmitSpan : Int
deriving DecidableEq, Repr

/-- An in-flight confirmable write (Go `WriteOp`, `conn.go`); the peer
address is an opaque identifier. -/
structure WriteOp where
  Msg : Message
  Addr : Nat
  Start : Int
  Retransmit : Nat
  Timeout : Int
  Next : Int
deriving DecidableEq, Repr

/-- Errors reported by the retransmit sweep (`errors.go`). -/
inductive RetransmitError where
  | retryLimit (retransmit : Nat) (maxRetransmit : Nat)
  | waitLimit (maxTransmitWait : Int)
deriving DecidableEq, Repr

/-- `RetransmitQueue.Retransmit` from `conn.go`: one insertion-order pass.
Returns (kept queue, due list, error reports); Go compacts `q.data` in place
to the kept queue, returns the due list, and calls the error handler on each
report, in the same order. -/
def Retransmit (opts : RetransmitOptions) (now : Int) :
    List WriteOp → List WriteOp × List WriteOp × List (Message × RetransmitError)
  | [] => ([], [], [])
  | op :: rest =>
    let (kept, due, errs) := Retransmit opts now rest
    if now < op.Next then (op :: kept, due, errs)
    else if op.Retransmit = opts.MaxRetransmit then
      (kept, due, (op.Msg, .retryLimit op.Retransmit opts.MaxRetransmit) :: errs)
    else if op.Start + opts.MaxTransmitWait < now then
      (kept, due, (op.Msg, .waitLimit opts.MaxTransmitWait) :: errs)
    else if op.Start + opts.MaxTransmitSpan < now then (op :: kept, due, errs)
    else
      let op' := { op with
        Timeout := 2 * op.Timeout
        Retransmit := op.Retransmit + 1
        Next := now + 2 * op.Timeout }
      (op' :: kept, op' :: due, errs)

/-- `RetransmitQueue.Next` from `conn.go`: fold the entries' `Next` instants
into `now + ACKTimeout` taking the earliest, and return it relative to
`now`. -/
def RQNext (opts : RetransmitOptions) (now : Int) (data : List WriteOp) : Int :=
  (data.foldl (fun next op => if op.Next < next then op.Next else next)
    (now + opts.ACKTimeout)) - now

/-- The value bytes an option contributes to the wire (the value part of
`Option.Encode`): nothing when the encoded length is zero, otherwise the
raw opaque/string bytes or the minimal big-endian uint encoding. -/
def Opt.valueBytes (o : Opt) : List Nat :=
  if o.GetLength = 0 then []
  else match o.odef.ValueFormat with
    | .Opaque => o.opaqueValue
    | .String => o.stringValue
    | .Uint => Encode32 o.uintValue []
    | .Empty => []

/-- Well-formedness of an option, as established by the Go setters
(`SetUint`/`SetOpaque`/`SetString`, `option.go`) plus the bounds implied by
Go's `uint16`/`uint32` field types: the value matches the definition's
format (unused value fields are zero), its encoded length lies within
`[MinLen, MaxLen]`, and code/length fields fit in 16 bits (values in 32). -/
def Opt.wf (o : Opt) : Bool :=
  o.odef.Code < 65536 && o.odef.MaxLen < 65536 &&
  o.odef.MinLen ≤ o.GetLength && o.GetLength ≤ o.odef.MaxLen &&
  (match o.odef.ValueFormat with
   | .Uint => o.uintValue < 2 ^ 32 && o.opaqueValue.isEmpty && o.stringValue.isEmpty
   | .Opaque => o.uintValue == 0 && o.stringValue.isEmpty && o.opaqueValue.length < 65536
   | .String => o.uintValue == 0 && o.opaqueValue.isEmpty && o.stringValue.length < 65536
   | .Empty => o.uintValue == 0 && o.opaqueValue.isEmpty && o.stringValue.isEmpty)

/-- The encode loop of `Options.AppendBinary` in recursive form: encode each
option against the running previous code. -/
def encodeOpts : List Opt → List Nat → Nat → List Nat
  | [], data, _ => data
  | o :: rest, data, prev => encodeOpts rest (o.Encode data prev) o.Code

/-- Conditions under which one stored option survives a decode round trip
under schema `s`: it is well formed, its definition is what the schema
yields for its code, it is recognized or critical (otherwise the decoder
drops it), and a non-repeatable option does not carry code 0 (the decoder's
initial `prev`). -/
def ValidOpt (s : Schema) (o : Opt) : Prop :=
  o.wf = true ∧ s.Option o.Code = o.odef
  ∧ (o.odef.Recognized = true ∨ o.odef.Critical = true)
  ∧ (o.odef.Repeatable = false → o.Code ≠ 0)

instance (s : Schema) (o : Opt) : Decidable (ValidOpt s o) := by
  unfold ValidOpt; infer_instance

/-- A sequence of options, starting from running code `prev`, that the
decode loop reproduces verbatim: codes are non-decreasing, a non-repeatable
option never repeats the running code, and every option is individually
valid for the schema. -/
def ValidSeq (s : Schema) : Nat → List Opt → Prop
  | _, [] => True
  | prev, o :: rest =>
    prev ≤ o.Code ∧ (o.odef.Repeatable = false → o.Code ≠ prev)
    ∧ ValidOpt s o ∧ ValidSeq s o.Code rest

/-- The per-entry classification of `retransmit(now)`, following the spec's
table: keep entries not yet due; drop at the retry limit with
*RetransmitRetryLimit*; drop past the wait limit with *RetransmitWaitLimit*;
keep without backoff past the span limit; otherwise back off. -/
inductive RetransmitAction where
  | keep
  | dropRetry
  | dropWait
  | keepSpan
  | backoff
deriving DecidableEq, Repr

/-- Modelled from the spec: the action column of the §4.8 retransmit table. -/
def specRetransmitAction (opts : RetransmitOptions) (now : Int) (op : WriteOp) :
    RetransmitAction :=
  if now < op.Next then .keep
  else if op.Retransmit = opts.MaxRetransmit then .dropRetry
  else if op.Start + opts.MaxTransmitWait < now then .dropWait
  else if op.Start + opts.MaxTransmitSpan < now then .keepSpan
  else .backoff

/-- Modelled from the spec: the backed-off entry — timeout doubled,
retransmit count incremented, next deadline `now + timeout`. -/
def specBackoff (now : Int) (op : WriteOp) : WriteOp :=
  { op with
    Timeout := 2 * op.Timeout
    Retransmit := op.Retransmit + 1
    Next := now + 2 * op.Timeout }

/-- Modelled from the spec: what a sweep keeps in the queue for one entry. -/
def specKeep (opts : RetransmitOptions) (now : Int) (op : WriteOp) : Option WriteOp :=
  match specRetransmitAction opts now op with
  | .keep | .keepSpan => some op
  | .backoff => some (specBackoff now op)
  | _ => none

/-- Modelled from the spec: what a sweep adds to the due list for one entry. -/
def specDue (opts : RetransmitOptions) (now : Int) (op : WriteOp) : Option WriteOp :=
  match specRetransmitAction opts now op with
  | .backoff => some (specBackoff now op)
  | _ => none

/-- Modelled from the spec: the error report a sweep emits for one entry. -/
def specReport (opts : RetransmitOptions) (now : Int) (op : WriteOp) :
    Option (Message × RetransmitError) :=
  match specRetransmitAction opts now op with
  | .dropRetry => some (op.Msg, .retryLimit op.Retransmit opts.MaxRetransmit)
  | .dropWait => some (op.Msg, .waitLimit opts.MaxTransmitWait)
  | _ => none

/-- A concrete confirmable GET-style message used as a round-trip witness. -/
def msgW : Message :=
  { header := ⟨1, 0, 1, 1, [0xD0]⟩,
    options := ⟨[⟨URIPort, 5683, [], []⟩]⟩,
    Payload := [0xAB] }

/-- The encoding of `msgW`. -/
def msgWBytes : List Nat := [0x41, 0x01, 0x00, 0x01, 0xD0, 0x72, 0x16, 0x33, 0xFF, 0xAB]

/-- A message holding the non-repeatable Uri-Port option twice; its option
values satisfy their definition's format and length bounds. -/
def msgDup : Message :=
  { header := ⟨1, 0, 1, 1, []⟩,
    options := ⟨[⟨URIPort, 0x4242, [], []⟩, ⟨URIPort, 0x4242, [], []⟩]⟩,
    Payload := [] }

/-- The encoding of `msgDup`. -/
def msgDupBytes : List Nat := [0x40, 0x01, 0x00, 0x01, 0x72, 0x42, 0x42, 0x02, 0x42, 0x42]

/-- What decoding `msgDupBytes` actually yields: the second Uri-Port comes
back rewritten to the synthetic unrecognized definition. -/
def msgDupDecoded : Message :=
  { header := ⟨1, 0, 1, 1, []⟩,
    options := ⟨[⟨URIPort, 0x4242, [], []⟩, ⟨UnrecognizedOptionDef 7, 0x4242, [], []⟩]⟩,
    Payload := [] }

/-- An empty message used to populate retransmit-queue entries. -/
def msg0 : Message := { header := ⟨1, 0, 1, 1, []⟩, options := ⟨[]⟩, Payload := [] }

/-- Retransmit options with `ACK_TIMEOUT = 2`. -/
def c7opts : RetransmitOptions :=
  { ACKTimeout := 2, MaxRetransmit := 4, MaxTransmitWait := 93, MaxTransmitSpan := 45 }

/-- A queue entry whose deadline lies 10 units in the future. -/
def c7op : WriteOp :=
  { Msg := msg0, Addr := 0, Start := 0, Retransmit := 0, Timeout := 2, Next := 10 }


/-! ### Bit-arithmetic helpers -/

theorem lor_eq_add {k : Nat} (x y : Nat) (hy : y < 2 ^ k) (hx : 2 ^ k ∣ x) :
    x ||| y = x + y := by
  obtain ⟨a, rfl⟩ := hx
  apply Nat.eq_of_testBit_eq
  intro j
  rw [Nat.testBit_or, Nat.testBit_mul_pow_two_add a hy j]
  by_cases hj : j < k
  · have h1 : (2 ^ k * a).testBit j = false := by
      rw [Nat.mul_comm, ← Nat.shiftLeft_eq, Nat.testBit_shiftLeft]
      simp [show ¬ k ≤ j from by omega]
    simp [h1, hj]
  · have h1 : (2 ^ k * a).testBit j = a.testBit (j - k) := by
      rw [Nat.mul_comm, ← Nat.shiftLeft_eq, Nat.testBit_shiftLeft]
      simp [show k ≤ j from by omega]
    have h2 : y.testBit j = false :=
      Nat.testBit_lt_two_pow
        (lt_of_lt_of_le hy (Nat.pow_le_pow_right (by omega) (by omega)))
    simp [h1, h2, hj]

theorem lor_sixteen (hd hl : Nat) (h2 : hl < 16) : (hd <<< 4) ||| hl = 16 * hd + hl := by
  rw [lor_eq_add (k := 4) _ _ (by omega) ⟨hd, by rw [Nat.shiftLeft_eq]; ring⟩,
    Nat.shiftLeft_eq]
  ring

theorem lor_byte (a b : Nat) (hb : b < 256) : (a <<< 8) ||| b = 256 * a + b := by
  rw [lor_eq_add (k := 8) _ _ (by omega) ⟨a, by rw [Nat.shiftLeft_eq]; ring⟩,
    Nat.shiftLeft_eq]
  ring

theorem and_fifteen (x : Nat) : x &&& 0x0F = x % 16 := by
  have h := Nat.and_pow_two_sub_one_eq_mod x 4
  norm_num at h
  exact h

theorem shiftRight_four (x : Nat) : x >>> 4 = x / 16 := by
  rw [Nat.shiftRight_eq_div_pow]

/-! ### Extend codec properties -/

/-- The nibble produced by `EncodeExtend` is at most 14. -/
theorem EncodeExtend_fst_le (data : List Nat) (v : Nat) : (EncodeExtend data v).1 ≤ 14 := by
  unfold EncodeExtend
  split_ifs <;> simp_all
  all_goals omega

/-- `EncodeExtend` appends its trailer to the given buffer. -/
theorem EncodeExtend_snd (data : List Nat) (v : Nat) :
    (EncodeExtend data v).2 = data ++ (EncodeExtend [] v).2 := by
  unfold EncodeExtend
  split_ifs <;> simp

/-- Decoding an extend nibble and trailer produced by `EncodeExtend` yields
the original value and consumes exactly the trailer. -/
theorem DecodeExtend_EncodeExtend (v : Nat) (hv : v < 65536) (rest : List Nat) :
    DecodeExtend ((EncodeExtend [] v).2 ++ rest) (EncodeExtend [] v).1 = .ok (v, rest) := by
  unfold EncodeExtend DecodeExtend
  by_cases h13 : v < 13
  · simp only [if_pos h13]
    simp [show ¬ v = 13 by omega, show ¬ v = 14 by omega, show ¬ v = 15 by omega]
  · by_cases h269 : v < 269
    · simp only [if_neg h13, if_pos h269]
      simp [Nat.mod_eq_of_lt (show v - 13 < 256 by omega), show v - 13 + 13 = v by omega]
    · simp only [if_neg h13, if_neg h269]
      have hw : v - 269 < 65536 := by omega
      have hhi : (v - 269) >>> 8 = (v - 269) / 256 := by
        rw [Nat.shiftRight_eq_div_pow]
      have hhi2 : (v - 269) / 256 < 256 := by omega
      simp only [List.cons_append, List.nil_append]
      simp only [hhi, Nat.mod_eq_of_lt hhi2]
      rw [lor_byte _ _ (Nat.mod_lt _ (by omega))]
      simp [show 256 * ((v - 269) / 256) + (v - 269) % 256 + 269 = v by omega]

/-- C4. For every `v ≤ 65535`, decoding the (nibble, trailing-bytes) pair
produced by `EncodeExtend` returns exactly `v` and consumes exactly the
trailing bytes; `DecodeExtend` fails with `UnsupportedExtend` iff the nibble
is 15, and fails with `Truncated{expected}` when the nibble is 13 (resp. 14)
and fewer than 1 (resp. 2) bytes remain. -/
theorem C4_extend_codec (v : Nat) (rest data : List Nat) (n : Nat) (hv : v < 65536) :
    DecodeExtend ((EncodeExtend [] v).2 ++ rest) (EncodeExtend [] v).1 = .ok (v, rest)
    ∧ (DecodeExtend data n = .error .unsupportedExtend ↔ n = 15)
    ∧ (data.length < 1 → DecodeExtend data 13 = .error (.truncated 1))
    ∧ (data.length < 2 → DecodeExtend data 14 = .error (.truncated 2)) := by
  refine ⟨DecodeExtend_EncodeExtend v hv rest, ?_, ?_, ?_⟩
  · constructor
    · intro h
      by_contra hne
      unfold DecodeExtend at h
      by_cases h13 : n = 13
      · subst h13
        cases data <;> simp_all
      · by_cases h14 : n = 14
        · subst h14
          match data with
          | [] => simp_all
          | [a] => simp_all
          | a :: b :: r => simp_all
        · simp_all
    · intro h
      subst h
      simp [DecodeExtend]
  · intro h
    have : data = [] := by
      cases data
      · rfl
      · simp at h
    subst this
    simp [DecodeExtend]
  · intro h
    unfold DecodeExtend
    match data with
    | [] => simp
    | [a] => simp
    | a :: b :: r => simp at h; omega

/-- Witness for C4 at `v = 300` (extend-dword form), nibble 15 for the
unsupported case, and an empty remainder for the truncation cases. -/
theorem C4_extend_codec_witness :
    DecodeExtend ((EncodeExtend [] 300).2 ++ [1, 2]) (EncodeExtend [] 300).1 = .ok (300, [1, 2])
    ∧ (DecodeExtend [] 15 = .error .unsupportedExtend ↔ 15 = 15)
    ∧ (List.length ([] : List Nat) < 1 → DecodeExtend [] 13 = .error (.truncated 1))
    ∧ (List.length ([] : List Nat) < 2 → DecodeExtend [] 14 = .error (.truncated 2)) :=
  C4_extend_codec 300 [1, 2] [] 15 (by decide)

/-! ### Minimal big-endian uint codec properties -/

theorem lor_three (a b c : Nat) (hb : b < 256) (hc : c < 256) :
    ((a <<< 16) ||| (b <<< 8)) ||| c = a * 65536 + b * 256 + c := by
  have h1 : (a <<< 16) ||| (b <<< 8) = a * 65536 + b * 256 := by
    rw [lor_eq_add (k := 16) _ _ ?_ ⟨a, by rw [Nat.shiftLeft_eq]; ring⟩]
    · rw [Nat.shiftLeft_eq, Nat.shiftLeft_eq]
    · rw [Nat.shiftLeft_eq]; norm_num; omega
  rw [h1, lor_eq_add (k := 8) _ _ (by norm_num; omega) ⟨a * 256 + b, by ring⟩]

theorem lor_four (a b c d : Nat) (hb : b < 256) (hc : c < 256) (hd : d < 256) :
    (((a <<< 24) ||| (b <<< 16)) ||| (c <<< 8)) ||| d
      = a * 16777216 + b * 65536 + c * 256 + d := by
  have h1 : (a <<< 24) ||| (b <<< 16) = a * 16777216 + b * 65536 := by
    rw [lor_eq_add (k := 24) _ _ ?_ ⟨a, by rw [Nat.shiftLeft_eq]; ring⟩]
    · rw [Nat.shiftLeft_eq, Nat.shiftLeft_eq]
    · rw [Nat.shiftLeft_eq]; norm_num; omega
  have h2 : (a * 16777216 + b * 65536) ||| (c <<< 8)
      = a * 16777216 + b * 65536 + c * 256 := by
    rw [lor_eq_add (k := 16) _ _ ?_ ⟨a * 256 + b, by ring⟩]
    · rw [Nat.shiftLeft_eq]
    · rw [Nat.shiftLeft_eq]; norm_num; omega
  rw [h1, h2, lor_eq_add (k := 8) _ _ (by norm_num; omega) ⟨a * 65536 + b * 256 + c, by ring⟩]

/-- Round trip of the minimal big-endian uint32 codec for nonzero values. -/
theorem Decode32_Encode32 (v : Nat) (hv : v < 2 ^ 32) :
    Decode32 (Encode32 v []) = some v := by
  unfold Encode32 Decode32
  by_cases h1 : v ≤ 0xFF
  · simp [h1, Nat.mod_eq_of_lt (show v < 256 by omega)]
  · by_cases h2 : v ≤ 0xFFFF
    · have hs : v >>> 8 = v / 256 := by rw [Nat.shiftRight_eq_div_pow]
      simp only [h1, h2, if_true, if_false, List.nil_append]
      simp only [hs, Nat.mod_eq_of_lt (show v / 256 < 256 by omega)]
      rw [lor_byte _ _ (Nat.mod_lt _ (by omega))]
      simp [show 256 * (v / 256) + v % 256 = v by omega]
    · by_cases h3 : v ≤ 0xFFFFFF
      · have hs16 : v >>> 16 = v / 65536 := by rw [Nat.shiftRight_eq_div_pow]
        have hs8 : v >>> 8 = v / 256 := by rw [Nat.shiftRight_eq_div_pow]
        simp only [h1, h2, h3, if_true, if_false, List.nil_append]
        simp only [hs16, hs8, Nat.mod_eq_of_lt (show v / 65536 < 256 by omega)]
        rw [lor_three _ _ _ (Nat.mod_lt _ (by omega)) (Nat.mod_lt _ (by omega))]
        simp [show v / 65536 * 65536 + v / 256 % 256 * 256 + v % 256 = v by omega]
      · have hs24 : v >>> 24 = v / 16777216 := by rw [Nat.shiftRight_eq_div_pow]
        have hs16 : v >>> 16 = v / 65536 := by rw [Nat.shiftRight_eq_div_pow]
        have hs8 : v >>> 8 = v / 256 := by rw [Nat.shiftRight_eq_div_pow]
        simp only [h1, h2, h3, if_false, List.nil_append]
        simp only [hs24, hs16, hs8,
          Nat.mod_eq_of_lt (show v / 16777216 < 256 by omega)]
        rw [lor_four _ _ _ _ (Nat.mod_lt _ (by omega)) (Nat.mod_lt _ (by omega))
          (Nat.mod_lt _ (by omega))]
        simp [show v / 16777216 * 16777216 + v / 65536 % 256 * 65536
          + v / 256 % 256 * 256 + v % 256 = v by omega]

/-- `Encode32` emits exactly `Len32 v` bytes for nonzero `v`. -/
theorem Encode32_length (v : Nat) (h0 : v ≠ 0) : (Encode32 v []).length = Len32 v := by
  unfold Encode32 Len32
  split_ifs <;> simp_all

/-- C5. The uint codec writes values big-endian with the minimal number of
bytes: zero bytes exactly for value 0, otherwise 1-4 bytes with a nonzero
leading byte, and decoding recovers the value.  In particular an option of
uint format with value 0 (here Uri-Port) encodes to its delta/length header
byte alone, with no value bytes. -/
theorem C5_uint_minimal (v : Nat) (hv : v < 2 ^ 32) :
    (Len32 v = 0 ↔ v = 0) ∧ Len32 v ≤ 4
    ∧ (v ≠ 0 → (Encode32 v []).length = Len32 v
        ∧ (Encode32 v []).head? ≠ some 0
        ∧ Decode32 (Encode32 v []) = some v)
    ∧ Opt.Encode ⟨URIPort, 0, [], []⟩ [] 0 = [0x70] := by
  refine ⟨?_, ?_, fun h0 => ⟨Encode32_length v h0, ?_, Decode32_Encode32 v hv⟩, by decide⟩
  · unfold Len32
    split_ifs <;> simp_all
  · unfold Len32
    split_ifs <;> simp
  · unfold Encode32
    by_cases h1 : v ≤ 0xFF
    · simp only [h1, if_true, List.nil_append]
      simp [Nat.mod_eq_of_lt (show v < 256 by omega)]
      omega
    · by_cases h2 : v ≤ 0xFFFF
      · have hs : v >>> 8 = v / 256 := by rw [Nat.shiftRight_eq_div_pow]
        simp only [h1, h2, if_true, if_false, List.nil_append]
        simp [hs, Nat.mod_eq_of_lt (show v / 256 < 256 by omega)]
        omega
      · by_cases h3 : v ≤ 0xFFFFFF
        · have hs : v >>> 16 = v / 65536 := by rw [Nat.shiftRight_eq_div_pow]
          simp only [h1, h2, h3, if_true, if_false, List.nil_append]
          simp [hs, Nat.mod_eq_of_lt (show v / 65536 < 256 by omega)]
          omega
        · have hs : v >>> 24 = v / 16777216 := by rw [Nat.shiftRight_eq_div_pow]
          simp only [h1, h2, h3, if_false, List.nil_append]
          simp [hs, Nat.mod_eq_of_lt (show v / 16777216 < 256 by omega)]
          omega

/-- Witness for C5 at `v = 5683`. -/
theorem C5_uint_minimal_witness :
    (Len32 5683 = 0 ↔ (5683 : Nat) = 0) ∧ Len32 5683 ≤ 4
    ∧ ((5683 : Nat) ≠ 0 → (Encode32 5683 []).length = Len32 5683
        ∧ (Encode32 5683 []).head? ≠ some 0
        ∧ Decode32 (Encode32 5683 []) = some 5683)
    ∧ Opt.Encode ⟨URIPort, 0, [], []⟩ [] 0 = [0x70] :=
  C5_uint_minimal 5683 (by norm_num)

/-! ### Single-option round trip -/

theorem Encode32_append (v : Nat) (data : List Nat) :
    Encode32 v data = data ++ Encode32 v [] := by
  unfold Encode32
  split_ifs <;> simp

theorem Len32_eq_zero_iff (v : Nat) : Len32 v = 0 ↔ v = 0 := by
  unfold Len32
  split_ifs <;> simp_all

/-- `Option.Encode` appends one header byte, the two extend trailers, and
the value bytes. -/
theorem Opt.encodeBytes_shape (o : Opt) (prev : Nat) :
    o.encodeBytes prev =
      (((EncodeExtend [] ((o.odef.Code + 65536 - prev) % 65536)).1 <<< 4)
        ||| (EncodeExtend [] o.GetLength).1)
      :: ((EncodeExtend [] ((o.odef.Code + 65536 - prev) % 65536)).2
          ++ (EncodeExtend [] o.GetLength).2 ++ o.valueBytes) := by
  unfold Opt.encodeBytes Opt.valueBytes
  by_cases h0 : o.GetLength = 0
  · simp [h0]
  · simp only [h0, if_neg, if_false]
    cases o.odef.ValueFormat
    · simp
    · rw [Encode32_append]
      simp
    · simp
    · simp

/-- The value bytes have exactly the encoded length for well-formed
options. -/
theorem Opt.valueBytes_length (o : Opt) (hwf : o.wf = true) :
    o.valueBytes.length = o.GetLength := by
  unfold Opt.valueBytes
  by_cases h0 : o.GetLength = 0
  · simp [h0]
  · simp only [h0, if_false]
    unfold Opt.wf at hwf
    rcases hfmt : o.odef.ValueFormat with _ | _ | _ | _ <;>
      rw [hfmt] at hwf <;> simp only [Bool.and_eq_true, decide_eq_true_eq] at hwf
    · exact absurd (by simp [Opt.GetLength, hfmt]) h0
    · have hv : o.uintValue ≠ 0 := by
        intro hz
        exact h0 (by simp [Opt.GetLength, hfmt, hz, Len32])
      rw [Encode32_length _ hv]
      simp [Opt.GetLength, hfmt]
    · simp [Opt.GetLength, hfmt, Nat.mod_eq_of_lt hwf.2.2]
    · simp [Opt.GetLength, hfmt, Nat.mod_eq_of_lt hwf.2.2]

/-- Basic bounds carried by well-formedness. -/
theorem Opt.wf_bounds (o : Opt) (hwf : o.wf = true) :
    o.odef.Code < 65536 ∧ o.odef.MaxLen < 65536
    ∧ o.odef.MinLen ≤ o.GetLength ∧ o.GetLength ≤ o.odef.MaxLen := by
  unfold Opt.wf at hwf
  simp only [Bool.and_eq_true, decide_eq_true_eq] at hwf
  exact ⟨hwf.1.1.1.1, hwf.1.1.1.2, hwf.1.1.2, hwf.1.2⟩

/-- Decoding the encoding of a well-formed option under a schema that maps
its code to its definition yields the option back and consumes exactly its
bytes. -/
theorem Opt.decode_encodeBytes (o : Opt) (prev : Nat) (rest : List Nat) (s : Schema)
    (hwf : o.wf = true) (hprev : prev ≤ o.Code)
    (hlookup : s.Option o.Code = o.odef) :
    Opt.Decode (o.encodeBytes prev ++ rest) prev s = .ok o rest := by
  obtain ⟨hcode16, hmax16, hmin, hmax⟩ := Opt.wf_bounds o hwf
  have hprev' : prev ≤ o.odef.Code := hprev
  have hlen16 : o.GetLength < 65536 := lt_of_le_of_lt hmax hmax16
  have hdelta_lt : (o.odef.Code + 65536 - prev) % 65536 < 65536 := Nat.mod_lt _ (by omega)
  have hd_le := EncodeExtend_fst_le [] ((o.odef.Code + 65536 - prev) % 65536)
  have hl_le := EncodeExtend_fst_le [] o.GetLength
  have hhdr := lor_sixteen (EncodeExtend [] ((o.odef.Code + 65536 - prev) % 65536)).1
      (EncodeExtend [] o.GetLength).1 (by omega)
  have h4 : (((EncodeExtend [] ((o.odef.Code + 65536 - prev) % 65536)).1 <<< 4)
      ||| (EncodeExtend [] o.GetLength).1) >>> 4
      = (EncodeExtend [] ((o.odef.Code + 65536 - prev) % 65536)).1 := by
    rw [hhdr, shiftRight_four]
    omega
  have h15 : (((EncodeExtend [] ((o.odef.Code + 65536 - prev) % 65536)).1 <<< 4)
      ||| (EncodeExtend [] o.GetLength).1) &&& 0x0F
      = (EncodeExtend [] o.GetLength).1 := by
    rw [hhdr, and_fifteen]
    omega
  rw [Opt.encodeBytes_shape, List.cons_append]
  rw [show ((EncodeExtend [] ((o.odef.Code + 65536 - prev) % 65536)).2
      ++ (EncodeExtend [] o.GetLength).2 ++ o.valueBytes) ++ rest
      = (EncodeExtend [] ((o.odef.Code + 65536 - prev) % 65536)).2
        ++ ((EncodeExtend [] o.GetLength).2 ++ (o.valueBytes ++ rest)) by
    simp [List.append_assoc]]
  unfold Opt.Decode
  simp only [h4, h15, DecodeExtend_EncodeExtend _ hdelta_lt, DecodeExtend_EncodeExtend _ hlen16]
  have hcode : (prev + (o.odef.Code + 65536 - prev) % 65536) % 65536 = o.odef.Code := by
    have h1 : o.odef.Code + 65536 - prev = (o.odef.Code - prev) + 65536 := by omega
    rw [h1, Nat.add_mod_right, Nat.mod_eq_of_lt (show o.odef.Code - prev < 65536 by omega)]
    rw [show prev + (o.odef.Code - prev) = o.odef.Code by omega, Nat.mod_eq_of_lt hcode16]
  rw [hcode]
  rw [show s.Option o.odef.Code = o.odef from hlookup]
  have hvblen : o.valueBytes.length = o.GetLength := Opt.valueBytes_length o hwf
  have hnotrunc : ¬ ((o.valueBytes ++ rest).length < o.GetLength) := by
    simp [List.length_append, hvblen]
  have hnobound : ¬ (o.GetLength < o.odef.MinLen ∨ o.odef.MaxLen < o.GetLength) := by
    omega
  rw [if_neg hnotrunc, if_neg hnobound]
  have htake : (o.valueBytes ++ rest).take o.GetLength = o.valueBytes := by
    rw [← hvblen, List.take_left]
  have hdrop : (o.valueBytes ++ rest).drop o.GetLength = rest := by
    rw [← hvblen, List.drop_left]
  unfold Opt.wf at hwf
  by_cases h0 : o.GetLength = 0
  · rw [if_pos h0]
    have hvb0 : o.valueBytes = [] := by
      have h := hvblen
      rw [h0] at h
      exact List.length_eq_zero.mp h
    rcases hfmt : o.odef.ValueFormat with _ | _ | _ | _ <;>
      rw [hfmt] at hwf <;> simp only [Bool.and_eq_true, decide_eq_true_eq] at hwf
    · obtain ⟨o1, o2, o3, o4⟩ := o
      simp_all [List.isEmpty_iff]
    · have hu0 : o.uintValue = 0 := by
        refine (Len32_eq_zero_iff _).mp ?_
        have h := h0
        simp only [Opt.GetLength, hfmt] at h
        exact h
      obtain ⟨o1, o2, o3, o4⟩ := o
      simp_all [List.isEmpty_iff]
    · have hov : o.opaqueValue = [] := by
        refine List.length_eq_zero.mp ?_
        have h := h0
        simp only [Opt.GetLength, hfmt] at h
        have hlt : o.opaqueValue.length < 65536 := hwf.2.2
        omega
      obtain ⟨o1, o2, o3, o4⟩ := o
      simp_all [List.isEmpty_iff]
    · have hsv : o.stringValue = [] := by
        refine List.length_eq_zero.mp ?_
        have h := h0
        simp only [Opt.GetLength, hfmt] at h
        have hlt : o.stringValue.length < 65536 := hwf.2.2
        omega
      obtain ⟨o1, o2, o3, o4⟩ := o
      simp_all [List.isEmpty_iff]
  · rw [if_neg h0]
    rcases hfmt : o.odef.ValueFormat with _ | _ | _ | _ <;>
      rw [hfmt] at hwf <;> simp only [Bool.and_eq_true, decide_eq_true_eq] at hwf
    · exact absurd (by simp [Opt.GetLength, hfmt]) h0
    · have hvb : o.valueBytes = Encode32 o.uintValue [] := by
        unfold Opt.valueBytes
        simp [h0, hfmt]
      simp only [hfmt]
      rw [htake, hdrop, hvb, Decode32_Encode32 _ hwf.2.1.1]
      obtain ⟨o1, o2, o3, o4⟩ := o
      simp_all [List.isEmpty_iff]
    · have hvb : o.valueBytes = o.opaqueValue := by
        unfold Opt.valueBytes
        simp [h0, hfmt]
      simp only [hfmt]
      rw [htake, hdrop, hvb]
      obtain ⟨o1, o2, o3, o4⟩ := o
      simp_all [List.isEmpty_iff]
    · have hvb : o.valueBytes = o.stringValue := by
        unfold Opt.valueBytes
        simp [h0, hfmt]
      simp only [hfmt]
      rw [htake, hdrop, hvb]
      obtain ⟨o1, o2, o3, o4⟩ := o
      simp_all [List.isEmpty_iff]

/-! ### Sorting and the encode loop -/

theorem insertByCode_perm (o : Opt) (l : List Opt) :
    List.Perm (insertByCode o l) (o :: l) := by
  induction l with
  | nil => exact List.Perm.refl _
  | cons x xs ih =>
    unfold insertByCode
    split_ifs
    · exact List.Perm.refl _
    · exact ((ih.cons x).trans (List.Perm.swap o x xs))

theorem sortByCode_perm (l : List Opt) : List.Perm (sortByCode l) l := by
  induction l with
  | nil => exact List.Perm.refl _
  | cons x xs ih =>
    unfold sortByCode at ih ⊢
    exact (insertByCode_perm x _).trans (ih.cons x)

theorem insertByCode_sorted (o : Opt) (l : List Opt)
    (h : l.Pairwise (fun a b => a.Code ≤ b.Code)) :
    (insertByCode o l).Pairwise (fun a b => a.Code ≤ b.Code) := by
  induction l with
  | nil => simp [insertByCode]
  | cons x xs ih =>
    rw [List.pairwise_cons] at h
    unfold insertByCode
    split_ifs with hlt
    · refine List.pairwise_cons.mpr ⟨?_, List.pairwise_cons.mpr h⟩
      intro y hy
      rcases List.mem_cons.mp hy with rfl | hy
      · omega
      · have := h.1 y hy
        omega
    · refine List.pairwise_cons.mpr ⟨?_, ih h.2⟩
      intro y hy
      have hy' : y ∈ o :: xs := (insertByCode_perm o xs).mem_iff.mp hy
      rcases List.mem_cons.mp hy' with rfl | hy'
      · omega
      · exact h.1 y hy'

theorem sortByCode_sorted (l : List Opt) :
    (sortByCode l).Pairwise (fun a b => a.Code ≤ b.Code) := by
  induction l with
  | nil => simp [sortByCode]
  | cons x xs ih => exact insertByCode_sorted x _ ih

/-- A sorted permutation whose duplicated codes are all repeatable forms a
valid decode sequence from any compatible starting code. -/
theorem validSeq_of_sorted (s : Schema) (l : List Opt) (prev : Nat)
    (hval : ∀ o ∈ l, ValidOpt s o)
    (hsorted : l.Pairwise (fun a b => a.Code ≤ b.Code))
    (hrep : l.Pairwise (fun a b => a.Code = b.Code →
      a.odef.Repeatable = true ∧ b.odef.Repeatable = true))
    (hprev : ∀ o ∈ l, prev ≤ o.Code ∧ (o.odef.Repeatable = false → o.Code ≠ prev)) :
    ValidSeq s prev l := by
  induction l generalizing prev with
  | nil => trivial
  | cons x xs ih =>
    rw [List.pairwise_cons] at hsorted hrep
    obtain ⟨hp1, hp2⟩ := hprev x (List.mem_cons_self x xs)
    refine ⟨hp1, hp2, hval x (List.mem_cons_self x xs), ?_⟩
    refine ih x.Code (fun o ho => hval o (List.mem_cons_of_mem x ho)) hsorted.2 hrep.2 ?_
    intro o ho
    refine ⟨hsorted.1 o ho, ?_⟩
    intro hnr heq
    have h2 := (hrep.1 o ho heq.symm).2
    rw [h2] at hnr
    simp at hnr

theorem foldl_encodeOpts (opts : List Opt) (data : List Nat) (prev : Nat) :
    (opts.foldl (fun acc opt => (Opt.Encode opt acc.1 acc.2, opt.Code)) (data, prev)).1
      = encodeOpts opts data prev := by
  induction opts generalizing data prev with
  | nil => rfl
  | cons o rest ih => exact ih (o.Encode data prev) o.Code

theorem encodeOpts_append (opts : List Opt) (data : List Nat) (prev : Nat) :
    encodeOpts opts data prev = data ++ encodeOpts opts [] prev := by
  induction opts generalizing data prev with
  | nil => simp [encodeOpts]
  | cons o rest ih =>
    show encodeOpts rest (o.Encode data prev) o.Code = _
    rw [ih (o.Encode data prev) o.Code]
    conv_rhs => rw [show encodeOpts (o :: rest) [] prev
      = encodeOpts rest (o.Encode [] prev) o.Code from rfl,
      ih (o.Encode [] prev) o.Code]
    unfold Opt.Encode
    simp [List.append_assoc]

theorem Options.AppendBinary_eq (o : Options) (data : List Nat) :
    o.AppendBinary data = data ++ encodeOpts (sortFuncGo o.data) [] 0 := by
  unfold Options.AppendBinary
  by_cases h : o.data.isEmpty
  · have hnil : o.data = [] := List.isEmpty_iff.mp h
    simp [h, hnil, show sortFuncGo [] = [] from rfl, encodeOpts]
  · rw [if_neg h, foldl_encodeOpts, encodeOpts_append]

/-- The wire header byte of an encoded option is never the payload marker. -/
theorem Opt.encodeBytes_head_ne (o : Opt) (prev : Nat) :
    ∃ hdr t, o.encodeBytes prev = hdr :: t ∧ hdr < 255 := by
  rw [Opt.encodeBytes_shape]
  refine ⟨_, _, rfl, ?_⟩
  have hd_le := EncodeExtend_fst_le [] ((o.odef.Code + 65536 - prev) % 65536)
  have hl_le := EncodeExtend_fst_le [] o.GetLength
  rw [lor_sixteen _ _ (by omega)]
  omega

/-- Decoding the encoding of a valid option sequence, followed by nothing or
by the payload marker, reproduces the sequence exactly. -/
theorem decodeLoop_encodeOpts (s : Schema) (opts : List Opt) (prev : Nat)
    (tail : List Nat) (fuel : Nat)
    (hfuel : opts.length < fuel)
    (hseq : ValidSeq s prev opts)
    (htail : tail = [] ∨ tail.head? = some PayloadMarker) :
    decodeLoop s fuel (encodeOpts opts [] prev ++ tail) prev = .ok opts tail := by
  induction opts generalizing prev fuel with
  | nil =>
    cases fuel with
    | zero => omega
    | succ f =>
      show decodeLoop s (f + 1) ([] ++ tail) prev = .ok [] tail
      rcases htail with rfl | hh
      · rfl
      · match tail, hh with
        | b :: t, hh =>
          have hb : b = PayloadMarker := by simpa using hh
          simp [decodeLoop, hb]
  | cons o rest ih =>
    obtain ⟨hp1, hp2, hvo, hseq'⟩ := hseq
    obtain ⟨hwf, hlook, hrc, _⟩ := hvo
    cases fuel with
    | zero => omega
    | succ f =>
      show decodeLoop s (f + 1) (encodeOpts rest (o.Encode [] prev) o.Code ++ tail) prev
        = .ok (o :: rest) tail
      rw [encodeOpts_append rest (o.Encode [] prev) o.Code]
      have hencnil : o.Encode [] prev = o.encodeBytes prev := by
        unfold Opt.Encode
        simp
      rw [hencnil]
      obtain ⟨hdr, t, hshape, hne⟩ := Opt.encodeBytes_head_ne o prev
      rw [hshape]
      have hdec : Opt.Decode ((hdr :: t) ++ (encodeOpts rest [] o.Code ++ tail)) prev s
          = .ok o (encodeOpts rest [] o.Code ++ tail) := by
        rw [← hshape]
        exact Opt.decode_encodeBytes o prev _ s hwf hp1 hlook
      rw [List.cons_append, List.cons_append, List.append_assoc]
      unfold decodeLoop
      rw [if_neg (by unfold PayloadMarker; omega)]
      rw [List.cons_append] at hdec
      have hrw : ¬ (o.odef.Repeatable = false ∧ o.Code = prev) := by
        rintro ⟨hh1, hh2⟩
        exact hp2 hh1 hh2
      have hkeep : ¬ (o.odef.Recognized = false ∧ o.odef.Critical = false) := by
        rintro ⟨hh1, hh2⟩
        rcases hrc with hr | hr
        · rw [hr] at hh1
          simp at hh1
        · rw [hr] at hh2
          simp at hh2
      simp only [hdec]
      simp only [if_neg hrw]
      simp only [if_neg hkeep]
      rw [ih o.Code f (by simpa using hfuel) hseq']
      rfl

/-! ### Header round trip -/

theorem header_byte0_fields (tpe tkl : Nat) (ht : tpe < 4) (hk : tkl ≤ 8) :
    ((((1 <<< 6) % 256) ||| ((tpe <<< 4) % 256)) ||| tkl) >>> 6 = 1
    ∧ (((((1 <<< 6) % 256) ||| ((tpe <<< 4) % 256)) ||| tkl) &&& 0x30) >>> 4 = tpe
    ∧ ((((1 <<< 6) % 256) ||| ((tpe <<< 4) % 256)) ||| tkl) &&& 0x0F = tkl := by
  interval_cases tpe <;> interval_cases tkl <;> decide

/-- One unfolding step of `Header.Decode` on an explicit 4-byte prefix. -/
theorem Header.Decode_cons (b code id1 id2 : Nat) (rest : List Nat) :
    Header.Decode (b :: code :: id1 :: id2 :: rest) =
      (if b >>> 6 ≠ ProtocolVersion then
        .err (.unsupportedVersion (b >>> 6)) (b :: code :: id1 :: id2 :: rest)
      else if TokenMaxLength < b &&& 0x0F then
        .err (.unsupportedTokenLength (b &&& 0x0F)) rest
      else if rest.length < b &&& 0x0F then .err (.truncated (b &&& 0x0F)) rest
      else .ok ⟨b >>> 6, (b &&& 0x30) >>> 4, code, (id1 <<< 8) ||| id2,
        rest.take (b &&& 0x0F)⟩ (rest.drop (b &&& 0x0F))) := by
  unfold Header.Decode
  rw [if_neg (by simp [HeaderLength])]

/-- Decoding the bytes produced by `Header.AppendBinary` (for a fresh
buffer) yields the header back and leaves the rest untouched. -/
theorem Header.decode_append (h : Header) (out rest : List Nat)
    (henc : h.AppendBinary [] = .ok out) (ht : h.Tpe < 4) (hid : h.ID < 65536) :
    Header.Decode (out ++ rest) = .ok h rest := by
  unfold Header.AppendBinary at henc
  by_cases hv : h.Version ≠ ProtocolVersion
  · rw [if_pos hv] at henc
    simp at henc
  rw [if_neg hv] at henc
  simp only at henc
  by_cases htk : TokenMaxLength < h.Token.length
  · rw [if_pos htk] at henc
    simp at henc
  rw [if_neg htk] at henc
  have hv1 : h.Version = 1 := by
    by_contra hne
    exact hv hne
  have htk8 : h.Token.length ≤ 8 := by
    unfold TokenMaxLength at htk
    omega
  rw [hv1] at henc
  simp only [Except.ok.injEq] at henc
  subst henc
  obtain ⟨hb6, hb30, hb15⟩ := header_byte0_fields h.Tpe h.Token.length ht htk8
  simp only [List.nil_append, List.cons_append, List.append_assoc]
  rw [Header.Decode_cons]
  rw [hb6, hb30, hb15]
  rw [if_neg (show ¬ ((1 : Nat) ≠ ProtocolVersion) by simp [ProtocolVersion])]
  rw [if_neg (show ¬ (TokenMaxLength < h.Token.length) by
    unfold TokenMaxLength
    omega)]
  rw [if_neg (show ¬ ((h.Token ++ rest).length < h.Token.length) by
    simp [List.length_append])]
  rw [List.take_left, List.drop_left]
  have hhi : (h.ID >>> 8) % 256 = h.ID / 256 := by
    have h1 : h.ID >>> 8 = h.ID / 256 := by
      rw [Nat.shiftRight_eq_div_pow]
    rw [h1]
    omega
  rw [hhi, lor_byte (h.ID / 256) (h.ID % 256) (by omega)]
  rw [show 256 * (h.ID / 256) + h.ID % 256 = h.ID by omega]
  rw [← hv1]

/-! ### Message round trip (C1) -/

theorem encodeOpts_length_ge (opts : List Opt) (prev : Nat) :
    opts.length ≤ (encodeOpts opts [] prev).length := by
  induction opts generalizing prev with
  | nil => simp [encodeOpts]
  | cons o rest ih =>
    show (o :: rest).length ≤ (encodeOpts rest (o.Encode [] prev) o.Code).length
    rw [encodeOpts_append]
    obtain ⟨hdr, t, hshape, _⟩ := Opt.encodeBytes_head_ne o prev
    have : o.Encode [] prev = o.encodeBytes prev := by
      unfold Opt.Encode
      simp
    rw [this, hshape]
    have := ih o.Code
    simp only [List.length_append, List.length_cons]
    omega

/-- C1 (amended).  For a message with protocol version 1, a 4-valued type, a
16-bit id, a token of at most 8 bytes, and options that are well formed,
schema-consistent, recognized-or-critical, and without repeated or zero
codes among non-repeatable definitions, decoding the encoding succeeds and
yields the same header and payload together with a permutation of the
original options sorted by code — namely the clone as reordered by the
standard library's `slices.SortFunc` (`sortFuncGo`).  That the sort returns
a code-sorted permutation is taken as a hypothesis (it is exactly the
stdlib's sorting contract, which the embedding does not re-verify) and is
checked concretely in the witness; the sort's tie order is not assumed. -/
theorem C1_message_roundtrip (m : Message) (s : Schema) (out : List Nat)
    (ht : m.header.Tpe < 4) (hid : m.header.ID < 65536)
    (hopts : ∀ o ∈ m.options.data, ValidOpt s o)
    (hrep : m.options.data.Pairwise (fun a b => a.Code = b.Code →
      a.odef.Repeatable = true ∧ b.odef.Repeatable = true))
    (hperm : List.Perm (sortFuncGo m.options.data) m.options.data)
    (hsorted : (sortFuncGo m.options.data).Pairwise (fun a b => a.Code ≤ b.Code))
    (henc : m.AppendBinary [] = .ok out) :
    Message.Decode out s
      = .ok { header := m.header, options := ⟨sortFuncGo m.options.data⟩,
              Payload := m.Payload }
    ∧ List.Perm (sortFuncGo m.options.data) m.options.data := by
  refine ⟨?_, hperm⟩
  unfold Message.AppendBinary at henc
  by_cases hv : m.header.Version ≠ ProtocolVersion
  · rw [if_pos hv] at henc
    simp at henc
  rw [if_neg hv] at henc
  match hh : m.header.AppendBinary [] with
  | .error e =>
    rw [hh] at henc
    simp at henc
  | .ok hdrBytes =>
    rw [hh] at henc
    simp only at henc
    rw [Options.AppendBinary_eq] at henc
    set optBytes := encodeOpts (sortFuncGo m.options.data) [] 0 with hob
    have hseq : ValidSeq s 0 (sortFuncGo m.options.data) := by
      refine validSeq_of_sorted s _ 0
        (fun o ho => hopts o (hperm.mem_iff.mp ho)) hsorted ?_ ?_
      · exact (List.Perm.pairwise_iff (by
          intro a b hab
          intro hba
          exact (hab hba.symm).symm) hperm).mpr hrep
      · intro o ho
        refine ⟨Nat.zero_le _, ?_⟩
        exact (hopts o (hperm.mem_iff.mp ho)).2.2.2
    have hfuel : ∀ tail : List Nat,
        (sortFuncGo m.options.data).length < (optBytes ++ tail).length + 1 := by
      intro tail
      have h1 := encodeOpts_length_ge (sortFuncGo m.options.data) 0
      rw [← hob] at h1
      simp only [List.length_append]
      omega
    by_cases hp : m.Payload ≠ []
    · rw [if_pos hp] at henc
      simp only [Except.ok.injEq] at henc
      subst henc
      unfold Message.Decode
      rw [show (hdrBytes ++ optBytes) ++ PayloadMarker :: m.Payload
        = hdrBytes ++ (optBytes ++ PayloadMarker :: m.Payload) by
          simp [List.append_assoc]]
      unfold Options.Decode
      have hloop := decodeLoop_encodeOpts s (sortFuncGo m.options.data) 0
        (PayloadMarker :: m.Payload) ((optBytes ++ PayloadMarker :: m.Payload).length + 1)
        (hfuel _) hseq (Or.inr rfl)
      rw [← hob] at hloop
      have h1lt : 1 < (PayloadMarker :: m.Payload).length := by
        have := List.length_pos.mpr hp
        simp only [List.length_cons]
        omega
      simp only [Header.decode_append m.header hdrBytes _ hh ht hid, hloop, if_pos h1lt]
      simp
    · rw [if_neg hp] at henc
      simp only [Except.ok.injEq] at henc
      subst henc
      have hpnil : m.Payload = [] := by
        by_contra hc
        exact hp hc
      unfold Message.Decode
      unfold Options.Decode
      have hloop := decodeLoop_encodeOpts s (sortFuncGo m.options.data) 0
        [] ((optBytes ++ []).length + 1) (hfuel _) hseq (Or.inl rfl)
      rw [← hob] at hloop
      simp only [List.append_nil] at hloop
      simp only [Header.decode_append m.header hdrBytes _ hh ht hid, hloop]
      simp [hpnil]

/-- Witness for C1 at the concrete message `msgW`. -/
theorem C1_message_roundtrip_witness :
    Message.Decode msgWBytes DefaultSchema
      = .ok { header := msgW.header, options := ⟨sortFuncGo msgW.options.data⟩,
              Payload := msgW.Payload }
    ∧ List.Perm (sortFuncGo msgW.options.data) msgW.options.data :=
  C1_message_roundtrip msgW DefaultSchema msgWBytes (by decide) (by decide)
    (by decide) (by decide) (by decide) (by decide) (by decide)

/-- C1 (counterexample).  `msgDup` is valid in the claim's sense — version 1,
token within 8 bytes, every option value matching its definition's format
and length bounds (and even drawn from the default schema) — yet decoding
its encoding does not return its options, not even as a multiset: the second
Uri-Port occurrence comes back under the synthetic unrecognized definition. -/
theorem C1_message_roundtrip_counterexample :
    (msgDup.header.Version = 1 ∧ msgDup.header.Token.length ≤ 8
      ∧ ∀ o ∈ msgDup.options.data, o.wf = true ∧ DefaultSchema.Option o.Code = o.odef)
    ∧ msgDup.AppendBinary [] = .ok msgDupBytes
    ∧ Message.Decode msgDupBytes DefaultSchema = .ok msgDupDecoded
    ∧ ¬ List.Perm msgDupDecoded.options.data msgDup.options.data
    ∧ msgDupDecoded ≠ msgDup := by
  decide

/-! ### Non-repeatable option handling (C2) -/

/-- C2.  When the bulk decode loop decodes a non-repeatable option whose
code equals the running previous code, the option's definition is replaced
with the synthetic unrecognized one, and the result is kept iff its code has
the critical bit set (unrecognized electives are dropped); moreover, on the
wire stream carrying Uri-Port (code 7, critical) twice in a row, the decoded
collection is the first occurrence under its real definition followed by the
second occurrence under the unrecognized opaque definition. -/
theorem C2_nonrepeatable_dedup (s : Schema) (f : Nat) (data : List Nat) (prev : Nat)
    (o : Opt) (r : List Nat)
    (hdec : Opt.Decode data prev s = .ok o r)
    (hrep : o.odef.Repeatable = false) (hcode : o.Code = prev) :
    decodeLoop s (f + 1) data prev
      = (if (UnrecognizedOptionDef o.Code).Critical = true then
          OptsOut.consOk { o with odef := UnrecognizedOptionDef o.Code }
            (decodeLoop s f r o.Code)
        else decodeLoop s f r o.Code)
    ∧ Options.Decode [0x72, 0x42, 0x42, 0x02, 0x42, 0x42] DefaultSchema
      = .ok [⟨URIPort, 0x4242, [], []⟩, ⟨UnrecognizedOptionDef 7, 0x4242, [], []⟩] [] := by
  refine ⟨?_, by decide⟩
  have hdata : data ≠ [] := by
    intro h
    subst h
    simp [Opt.Decode] at hdec
  match data, hdata with
  | b :: rest, _ =>
    have hb : ¬ (b = PayloadMarker) := by
      intro hbm
      subst hbm
      have hx : Opt.Decode (PayloadMarker :: rest) prev s = .err .unsupportedExtend rest := rfl
      rw [hx] at hdec
      simp at hdec
    show decodeLoop s (f + 1) (b :: rest) prev = _
    conv_lhs => unfold decodeLoop
    rw [if_neg hb]
    simp only [hdec]
    rw [if_pos (show o.odef.Repeatable = false ∧ o.Code = prev from ⟨hrep, hcode⟩)]
    have hcodes : ({ o with odef := UnrecognizedOptionDef o.Code } : Opt).Code = o.Code := by
      simp [Opt.Code, UnrecognizedOptionDef]
    have hrec : ({ o with odef := UnrecognizedOptionDef o.Code } : Opt).odef.Recognized
        = false := by
      simp [UnrecognizedOptionDef, OptionDef.Recognized]
    by_cases hcrit : (UnrecognizedOptionDef o.Code).Critical = true
    · rw [if_pos hcrit, if_neg (by
        rintro ⟨_, hc2⟩
        rw [show ({ o with odef := UnrecognizedOptionDef o.Code } : Opt).odef.Critical
          = (UnrecognizedOptionDef o.Code).Critical from rfl] at hc2
        rw [hcrit] at hc2
        simp at hc2)]
      rw [hcodes]
    · rw [if_neg hcrit]
      rw [if_pos ⟨hrec, by
        rw [show ({ o with odef := UnrecognizedOptionDef o.Code } : Opt).odef.Critical
          = (UnrecognizedOptionDef o.Code).Critical from rfl]
        exact Bool.not_eq_true _ ▸ (Bool.eq_false_iff.mpr (fun hc => hcrit hc))⟩]
      rw [hcodes]

/-- Witness for C2: the second consecutive Uri-Port (delta 0) at `prev = 7`. -/
theorem C2_nonrepeatable_dedup_witness :
    decodeLoop DefaultSchema (3 + 1) [0x02, 0x42, 0x42] 7
      = (if (UnrecognizedOptionDef (Opt.Code ⟨URIPort, 0x4242, [], []⟩)).Critical = true then
          OptsOut.consOk { (⟨URIPort, 0x4242, [], []⟩ : Opt) with
            odef := UnrecognizedOptionDef (Opt.Code ⟨URIPort, 0x4242, [], []⟩) }
            (decodeLoop DefaultSchema 3 [] (Opt.Code ⟨URIPort, 0x4242, [], []⟩))
        else decodeLoop DefaultSchema 3 [] (Opt.Code ⟨URIPort, 0x4242, [], []⟩))
    ∧ Options.Decode [0x72, 0x42, 0x42, 0x02, 0x42, 0x42] DefaultSchema
      = .ok [⟨URIPort, 0x4242, [], []⟩, ⟨UnrecognizedOptionDef 7, 0x4242, [], []⟩] [] :=
  C2_nonrepeatable_dedup DefaultSchema 3 [0x02, 0x42, 0x42] 7
    ⟨URIPort, 0x4242, [], []⟩ [] (by decide) (by decide) (by decide)

/-! ### Retransmit sweep (C3) -/

set_option maxHeartbeats 1000000 in
/-- C3.  One call of `retransmit(now)` is a single insertion-order pass: each
entry is classified by the spec's table — kept when not due, dropped with
*RetransmitRetryLimit* at the retry limit, dropped with *RetransmitWaitLimit*
past the wait budget, kept without backoff past the span budget, and
otherwise backed off (timeout doubled, count incremented, next = now +
timeout) and appended to the due list — and the kept queue, due list and
error reports each preserve insertion order. -/
theorem C3_retransmit_pass (opts : RetransmitOptions) (now : Int) (data : List WriteOp) :
    Retransmit opts now data
      = (data.filterMap (specKeep opts now), data.filterMap (specDue opts now),
         data.filterMap (specReport opts now)) := by
  induction data with
  | nil => rfl
  | cons op rest ih =>
    simp only [Retransmit]
    rw [ih]
    simp only [List.filterMap_cons]
    unfold specKeep specDue specReport specRetransmitAction specBackoff
    split_ifs with h1 h2 h3 h4 <;> simp

/-! ### Next deadline (C7) -/

/-- C7 (counterexample).  With `ACK_TIMEOUT = 2` and a single queue entry
whose deadline is 10 units away, `next_deadline(now)` returns 2, not the
smallest `next - now` (10) over the entries as the claim states. -/
theorem C7_next_deadline_counterexample :
    RQNext c7opts 0 [c7op] = 2 ∧ c7op.Next - 0 = 10
    ∧ ¬ (RQNext c7opts 0 [c7op] = 10) := by
  decide

/-- C7 (amended).  `next_deadline(now)` returns the minimum of `ACK_TIMEOUT`
and all entries' `next - now`; in particular `ACK_TIMEOUT` when the queue is
empty. -/
theorem C7_next_deadline (opts : RetransmitOptions) (now : Int) (data : List WriteOp) :
    RQNext opts now data
      = (data.map (fun op => op.Next - now)).foldl min opts.ACKTimeout := by
  unfold RQNext
  have aux : ∀ (l : List WriteOp) (acc : Int),
      (l.foldl (fun next op => if op.Next < next then op.Next else next) acc) - now
        = (l.map (fun op => op.Next - now)).foldl min (acc - now) := by
    intro l
    induction l with
    | nil => intro acc; rfl
    | cons op rest ih =>
      intro acc
      simp only [List.foldl_cons, List.map_cons]
      rw [ih]
      congr 1
      split_ifs with h
      · rw [min_eq_right (by omega)]
      · rw [min_eq_left (by omega)]
  rw [aux]
  congr 1
  omega

/-! ### Unrecognized option lookup (C8) -/

/-- C8 (counterexample).  The synthetic definition returned for the
unregistered code 2 has the fixed maximum length 1034: there is no
caller-supplied maximum option length in the lookup path, and 1034 differs
from the spec's default caller policy `max_option_length = 1024`. -/
theorem C8_unrecognized_lookup_counterexample :
    (DefaultSchema.Option 2).MaxLen = 1034
    ∧ ¬ ((DefaultSchema.Option 2).MaxLen = 1024) := by
  decide

/-- C8 (amended).  A schema miss yields the synthetic unrecognized
definition: code `c`, empty name, opaque format, non-repeatable, minimum
length 0 and the fixed maximum length 1034; an option decoded under it
carries its raw bytes as an opaque value (shown for code 2 with two value
bytes under the default schema). -/
theorem C8_unrecognized_lookup (s : Schema) (c : Nat)
    (hmiss : s.options.find? (fun d => d.Code == c) = none) :
    s.Option c = UnrecognizedOptionDef c
    ∧ (s.Option c).Name = "" ∧ (s.Option c).Code = c
    ∧ (s.Option c).ValueFormat = .Opaque ∧ (s.Option c).Repeatable = false
    ∧ (s.Option c).MinLen = 0 ∧ (s.Option c).MaxLen = 1034
    ∧ Opt.Decode [0x22, 0xAB, 0xCD] 0 DefaultSchema
      = .ok ⟨UnrecognizedOptionDef 2, 0, [0xAB, 0xCD], []⟩ [] := by
  have h : s.Option c = UnrecognizedOptionDef c := by
    unfold Schema.Option
    rw [hmiss]
  refine ⟨h, ?_, ?_, ?_, ?_, ?_, ?_, by decide⟩ <;> rw [h] <;> rfl

/-- Witness for C8 at the default schema and the unregistered code 2. -/
theorem C8_unrecognized_lookup_witness :
    DefaultSchema.Option 2 = UnrecognizedOptionDef 2
    ∧ (DefaultSchema.Option 2).Name = "" ∧ (DefaultSchema.Option 2).Code = 2
    ∧ (DefaultSchema.Option 2).ValueFormat = .Opaque
    ∧ (DefaultSchema.Option 2).Repeatable = false
    ∧ (DefaultSchema.Option 2).MinLen = 0 ∧ (DefaultSchema.Option 2).MaxLen = 1034
    ∧ Opt.Decode [0x22, 0xAB, 0xCD] 0 DefaultSchema
      = .ok ⟨UnrecognizedOptionDef 2, 0, [0xAB, 0xCD], []⟩ [] :=
  C8_unrecognized_lookup DefaultSchema 2 (by decide)

/-! ### Totality of option decoding (C9) -/

theorem Decode32_isSome (l : List Nat) (h1 : l ≠ []) (h4 : l.length ≤ 4) :
    ∃ v, Decode32 l = some v := by
  match l with
  | [] => exact absurd rfl h1
  | [a] => exact ⟨_, rfl⟩
  | [a, b] => exact ⟨_, rfl⟩
  | [a, b, c] => exact ⟨_, rfl⟩
  | [a, b, c, d] => exact ⟨_, rfl⟩
  | _ :: _ :: _ :: _ :: _ :: _ => simp at h4

/-- One option decode never panics when every uint definition in the schema
allows at most 4 value bytes. -/
theorem Opt.Decode_no_panics (s : Schema)
    (hs : ∀ d ∈ s.options, d.ValueFormat = .Uint → d.MaxLen ≤ 4)
    (data : List Nat) (prev : Nat) :
    Opt.Decode data prev s ≠ .panics := by
  match data with
  | [] => simp [Opt.Decode]
  | b :: rest =>
    unfold Opt.Decode
    match h1 : DecodeExtend rest (b >>> 4) with
    | .error e => simp [h1]
    | .ok (delta, d2) =>
      simp only [h1]
      match h2 : DecodeExtend d2 (b &&& 0x0F) with
      | .error e => simp [h2]
      | .ok (len, d3) =>
        simp only [h2]
        by_cases hc1 : d3.length < len
        · rw [if_pos hc1]
          simp
        rw [if_neg hc1]
        by_cases hc2 : len < (s.Option ((prev + delta) % 65536)).MinLen
            ∨ (s.Option ((prev + delta) % 65536)).MaxLen < len
        · rw [if_pos hc2]
          simp
        rw [if_neg hc2]
        by_cases hc3 : len = 0
        · rw [if_pos hc3]
          simp
        rw [if_neg hc3]
        rcases hfind : s.options.find? (fun d => d.Code == (prev + delta) % 65536)
          with _ | d
        · have hu : s.Option ((prev + delta) % 65536)
              = UnrecognizedOptionDef ((prev + delta) % 65536) := by
            unfold Schema.Option
            rw [hfind]
          rw [hu]
          simp [UnrecognizedOptionDef]
        · have hd : s.Option ((prev + delta) % 65536) = d := by
            unfold Schema.Option
            rw [hfind]
          have hmem : d ∈ s.options := List.mem_of_find?_eq_some hfind
          rw [hd] at hc2 ⊢
          rcases hfmt : d.ValueFormat with _ | _ | _ | _
        -- Empty
          · simp [hfmt]
        -- Uint
          · have hmax : d.MaxLen ≤ 4 := hs d hmem hfmt
            have hlen4 : (d3.take len).length ≤ 4 := by
              rw [List.length_take]
              omega
            have hne : d3.take len ≠ [] := by
              have : (d3.take len).length = len := by
                rw [List.length_take]
                omega
              intro hnil
              rw [hnil] at this
              simp at this
              omega
            obtain ⟨v, hv⟩ := Decode32_isSome _ hne hlen4
            simp only [hv]
            simp
        -- Opaque
          · simp [hfmt]
        -- String
          · simp [hfmt]

theorem OptsOut.consOk_ne_panics (o : Opt) (x : OptsOut) (h : x ≠ .panics) :
    OptsOut.consOk o x ≠ .panics := by
  cases x <;> simp_all [OptsOut.consOk]

/-- The bulk decode loop never panics when every uint definition in the
schema allows at most 4 value bytes. -/
theorem decodeLoop_no_panics (s : Schema)
    (hs : ∀ d ∈ s.options, d.ValueFormat = .Uint → d.MaxLen ≤ 4)
    (fuel : Nat) : ∀ (data : List Nat) (prev : Nat),
    decodeLoop s fuel data prev ≠ .panics := by
  induction fuel with
  | zero =>
    intro data prev
    simp [decodeLoop]
  | succ f ih =>
    intro data prev
    match data with
    | [] => simp [decodeLoop]
    | b :: rest =>
      unfold decodeLoop
      by_cases hb : b = PayloadMarker
      · rw [if_pos hb]
        simp
      rw [if_neg hb]
      match hdec : Opt.Decode (b :: rest) prev s with
      | .err e r => simp
      | .panics => exact absurd hdec (Opt.Decode_no_panics s hs _ _)
      | .ok o r =>
        simp only
        split_ifs <;>
          first
            | exact ih r _
            | exact OptsOut.consOk_ne_panics _ _ (ih r _)

/-- C9.  Bulk option decoding is total — it never reaches the uint decoder's
panic — for every input byte sequence, whenever every uint-format definition
in the schema has maximum length at most 4; and the default schema satisfies
that bound. -/
theorem C9_option_decode_total (s : Schema) (data : List Nat)
    (hs : ∀ d ∈ s.options, d.ValueFormat = .Uint → d.MaxLen ≤ 4) :
    Options.Decode data s ≠ .panics
    ∧ (∀ d ∈ DefaultSchema.options, d.ValueFormat = .Uint → d.MaxLen ≤ 4) :=
  ⟨decodeLoop_no_panics s hs _ data 0, by decide⟩

/-- Witness for C9: a two-byte stream under the default schema. -/
theorem C9_option_decode_total_witness :
    Options.Decode [0x11, 0xAA] DefaultSchema ≠ .panics
    ∧ (∀ d ∈ DefaultSchema.options, d.ValueFormat = .Uint → d.MaxLen ≤ 4) :=
  C9_option_decode_total DefaultSchema [0x11, 0xAA] (by decide)

/-! ### Lone payload marker (C10) -/

/-- C10.  When the options decoder stops with exactly the single payload
marker byte remaining, message decoding succeeds and the decoded message has
an empty payload: a lone 0xFF after the options is accepted. -/
theorem C10_lone_marker (data rest1 : List Nat) (s : Schema) (h : Header)
    (opts : List Opt)
    (hhdr : Header.Decode data = .ok h rest1)
    (hopts : Options.Decode rest1 s = .ok opts [PayloadMarker]) :
    Message.Decode data s = .ok { header := h, options := ⟨opts⟩, Payload := [] } := by
  unfold Message.Decode
  simp only [hhdr, hopts]
  simp [PayloadMarker]

/-- Witness for C10: a four-byte header followed by a lone payload marker. -/
theorem C10_lone_marker_witness :
    Message.Decode [0x40, 0x01, 0x00, 0x01, 0xFF] DefaultSchema
      = .ok { header := ⟨1, 0, 1, 1, []⟩, options := ⟨[]⟩, Payload := [] } :=
  C10_lone_marker [0x40, 0x01, 0x00, 0x01, 0xFF] [0xFF] DefaultSchema
    ⟨1, 0, 1, 1, []⟩ [] (by decide) (by decide)

/-! ### SortFunc tie order (C6) -/

set_option maxRecDepth 10000 in
/-- C6.  The sort used by option encoding (`slices.SortFunc`, i.e. pdqsort,
modelled by `sortFuncGo`) does order the 13 options of `c6input` by
non-decreasing code, but it does not preserve insertion order among the two
equal-code options: the code-5 option with value `[0xA2]` (at index 6 of the
input) ends up before the code-5 option with value `[0xA1]` (at index 0 of
the input), whereas a stable by-code sort (`sortByCode`) keeps `[0xA1]`
first.  This refutes the claim's "insertion order preserved among equal
codes" for collections of 13 or more options. -/
theorem C6_sortfunc_unstable :
    sortFuncGo c6input = c6output
    ∧ List.Pairwise (fun a b => a.Code ≤ b.Code) c6output
    ∧ sortByCode c6input ≠ c6output
    ∧ sortByCode c6input
        = [mkOpt 0 [], mkOpt 1 [], mkOpt 2 [], mkOpt 3 [], mkOpt 4 [], mkOpt 5 [0xA1],
           mkOpt 5 [0xA2], mkOpt 6 [], mkOpt 7 [], mkOpt 8 [], mkOpt 9 [], mkOpt 10 [],
           mkOpt 11 []] := by decide

end Coap
